import Mathlib

/-!
Verification of the temporian event-processing core against its sources.

Timestamps and durations are embedded as rationals (the Python sources use
float64; all claim-relevant arithmetic is exact first differences and
comparisons, which ℚ models exactly).  A missing value (NaN in the sources)
is embedded as `none : Option ℚ`.  Python dictionaries keyed by an index key
are embedded as association lists, iterated in insertion order like a Python
dict; a dictionary access `d[k]` that can fail with `KeyError` is embedded
through `lookupKey` together with `Except`.
-/

namespace Temporian

/-- An index key: the tuple of index column values identifying one group. -/
abbrev IndexKey := List String

/-- Python dict access `d[k]` on an association list kept in insertion
order: returns the value of the first entry whose key is `k`. -/
def lookupKey {κ : Type _} {α : Type _} [DecidableEq κ] (k : κ) :
    List (κ × α) → Option α
  | [] => none
  | (k2, v) :: rest => if k2 = k then some v else lookupKey k rest

/-- A timestamp sequence is ascending (duplicates permitted), as required of
every `IndexData` by the data model. -/
def AscendingQ (ts : List ℚ) : Prop := List.Chain' (· ≤ ·) ts

instance (ts : List ℚ) : Decidable (AscendingQ ts) :=
  inferInstanceAs (Decidable (List.Chain' (· ≤ ·) ts))

/-- `IndexData(features, timestamps)` from
temporian/implementation/numpy/data/event_set.py: one group's per-feature
value buffers plus its ascending timestamp sequence.  Feature buffers hold
`Option ℚ` (none = NaN/missing). -/
structure IndexData where
  features : List (List (Option ℚ))
  timestamps : List ℚ
deriving DecidableEq, Repr

/-- `EventSet` from temporian/implementation/numpy/data/event_set.py:
a mapping from index key to `IndexData` plus schema metadata. -/
structure EventSet where
  data : List (IndexKey × IndexData)
  feature_names : List String
  index_names : List String
  is_unix_timestamp : Bool
deriving DecidableEq, Repr

/-- The feature values of the no-sampling branch of
`SinceLastNumpyImplementation.__call__`
(temporian/implementation/numpy/operators/since_last.py, lines 58-61):
`np.concatenate([[np.nan], np.diff(index_data.timestamps)])`, i.e. a missing
first element followed by the backward first differences. -/
def sinceLastDiffVals (ts : List ℚ) : List (Option ℚ) :=
  none :: List.zipWith (fun a b => some (b - a)) ts ts.tail

/-- Modelled from the spec: the native kernel `operators_cc.since_last`
(temporian/implementation/numpy_cc/operators) is not among the sources.
Per §4.4, for each query timestamp `t` it outputs the elapsed time `t - u`
for the most recent input timestamp `u <= t` of the same group, and missing
when no such input timestamp exists.  On an ascending input sequence the
most recent such timestamp is the last one that satisfies `u <= t`. -/
def since_last_cc (input_ts : List ℚ) (query_ts : List ℚ) : List (Option ℚ) :=
  query_ts.map (fun t =>
    ((input_ts.filter (fun u => u ≤ t)).getLast?).map (fun u => t - u))

/-- One iteration of the loop of `SinceLastNumpyImplementation.__call__`
(since_last.py, lines 48-64) for the group `(k, d)` of the input:
with an explicit sampling, `sampling.data[index_key]` is read (a missing key
raises `KeyError`, embedded as `Except.error`) and the kernel's values are
emitted at the sampling timestamps; without a sampling, the first-difference
values are emitted at the input's own timestamps. -/
def sinceLastProcessGroup (sampling : Option EventSet) (k : IndexKey)
    (d : IndexData) : Except String (IndexKey × IndexData) :=
  match sampling with
  | some s =>
      match lookupKey k s.data with
      | none => Except.error "KeyError"
      | some sd =>
          Except.ok (k, ⟨[since_last_cc d.timestamps sd.timestamps], sd.timestamps⟩)
  | none =>
      Except.ok (k, ⟨[sinceLastDiffVals d.timestamps], d.timestamps⟩)

/-- The loop `for index_key, index_data in input.iterindex()` of
`SinceLastNumpyImplementation.__call__`: groups of the *input* are processed
in insertion order; the first `KeyError` aborts the call. -/
def sinceLastLoop (sampling : Option EventSet) :
    List (IndexKey × IndexData) → Except String (List (IndexKey × IndexData))
  | [] => Except.ok []
  | (k, d) :: rest => do
      let r ← sinceLastProcessGroup sampling k d
      let rs ← sinceLastLoop sampling rest
      pure (r :: rs)

/-- `SinceLastNumpyImplementation.__call__` (since_last.py, lines 35-66):
builds the output `EventSet` with the single feature "since_last", the
input's index names and timestamp semantics, and one output group per input
group. -/
def sinceLastCall (input : EventSet) (sampling : Option EventSet) :
    Except String EventSet := do
  let outData ← sinceLastLoop sampling input.data
  pure { data := outData
         feature_names := ["since_last"]
         index_names := input.index_names
         is_unix_timestamp := input.is_unix_timestamp }

/-! ## Window operator family (moving_min) -/

/-- `FeatureSchema` from temporian/core/data/schema.py: the name and dtype
of one feature of a node's schema. -/
inductive DTypeW
  | float32
  | float64
  | int32
  | int64
  | string
deriving DecidableEq, Repr

structure FeatureSchema where
  name : String
  dtype : DTypeW
deriving DecidableEq, Repr

namespace MovingMinOperator

/-- `MovingMinOperator.get_feature_dtype`
(temporian/core/operators/window/moving_min.py, lines 32-33): the output
feature keeps the input feature's dtype. -/
def get_feature_dtype (feature : FeatureSchema) : DTypeW := feature.dtype

end MovingMinOperator

/-- Modelled from the spec: `BaseWindowOperator.__init__`
(temporian/core/operators/window/base.py) is not among the sources.  Per
§4.3, the output schema has exactly one feature per input feature, with the
input feature's name and the dtype given by the subclass's
`get_feature_dtype`. -/
def windowOutputFeatures (input_features : List FeatureSchema)
    (get_dtype : FeatureSchema → DTypeW) : List FeatureSchema :=
  input_features.map (fun f => ⟨f.name, get_dtype f⟩)

/-- The output feature schemas of a `MovingMinOperator`. -/
def movingMinOutputFeatures (input_features : List FeatureSchema) :
    List FeatureSchema :=
  windowOutputFeatures input_features MovingMinOperator.get_feature_dtype

/-- Minimum of a list of rationals, `none` on the empty list (the
missing-value sentinel of an empty or all-missing window). -/
def listMinQ : List ℚ → Option ℚ
  | [] => none
  | a :: rest =>
      match listMinQ rest with
      | none => some a
      | some b => some (min a b)

/-- The window of the spec, §4.3 step 1-2: the non-missing input values
whose timestamps `u` satisfy `t - window_length <= u <= t` (closed interval,
inclusive on both edges).  `pairs` zips the input timestamps with the
per-feature values. -/
def windowValues (pairs : List (ℚ × Option ℚ)) (window_length t : ℚ) :
    List ℚ :=
  (pairs.filter (fun p => t - window_length ≤ p.1 ∧ p.1 ≤ t)).filterMap
    Prod.snd

/-- The specification-side (brute-force) moving minimum: at each sampling
timestamp, the minimum of the non-missing values in the closed window, and
the missing sentinel when the window holds no value.  This definition
follows the claim's and §4.3's words directly. -/
def movingMinSpec (pairs : List (ℚ × Option ℚ)) (window_length : ℚ)
    (sampling_ts : List ℚ) : List (Option ℚ) :=
  sampling_ts.map (fun t => listMinQ (windowValues pairs window_length t))

/-- Modelled from the spec: the numpy/cc implementation of the moving
window aggregation (temporian/implementation/numpy/operators/window and
temporian/implementation/numpy_cc) is not among the sources.  Per §4.3's
algorithmic requirement, the evaluator walks the ascending sampling
timestamps and advances a window-start pointer monotonically over the
ascending input: points expired on the left (`u < t - window_length`,
inclusive-left window) are evicted once and never re-scanned (the evicted
prefix is dropped from the list handed to the recursive call), the right
edge takes points with `u <= t`, and the reducer (min for moving_min) is
applied to the non-missing values currently in the window. -/
def movingMinImplAux (window_length : ℚ) :
    List (ℚ × Option ℚ) → List ℚ → List (Option ℚ)
  | _, [] => []
  | pairs, t :: rest =>
      let live := pairs.dropWhile (fun p => p.1 < t - window_length)
      let window := live.takeWhile (fun p => p.1 ≤ t)
      listMinQ (window.filterMap Prod.snd) ::
        movingMinImplAux window_length live rest

/-- The modelled moving-minimum implementation for one (index group,
feature) pair: input timestamps `ts` with values `vs`, evaluated at the
`sampling_ts`. -/
def movingMinImpl (ts : List ℚ) (vs : List (Option ℚ)) (window_length : ℚ)
    (sampling_ts : List ℚ) : List (Option ℚ) :=
  movingMinImplAux window_length (List.zip ts vs) sampling_ts

/-! ## Core schema graph: Sampling, Feature, Event, rename, calendar

The creator fields hold `Option Unit`: `some ()` marks an object freshly
allocated by the constructing operator (`creator=self` in the sources),
`none` an object without creator.  Allocation identity itself is not
observable in a shallow embedding; it is modelled structurally through this
field. -/

/-- `IndexLevel` from temporian/core/data/sampling.py: the name and dtype
of one index level. -/
structure IndexLevel where
  name : String
  dtype : DTypeW
deriving DecidableEq, Repr

/-- `Sampling` from temporian/core/data/sampling.py: index levels plus
timestamp semantics. -/
structure Sampling where
  index_levels : List IndexLevel
  is_unix_timestamp : Bool
  creator : Option Unit
deriving DecidableEq, Repr

/-- `Feature` from temporian/core/data/feature.py. -/
structure Feature where
  name : String
  dtype : DTypeW
  sampling : Sampling
  creator : Option Unit
deriving DecidableEq, Repr

/-- `Event` from temporian/core/data/event.py: the schema node. -/
structure Event where
  features : List Feature
  sampling : Sampling
  creator : Option Unit
deriving DecidableEq, Repr

/-- `Event.index_names`: the names of the sampling's index levels. -/
def Event.index_names (e : Event) : List String :=
  e.sampling.index_levels.map (fun level => level.name)

/-- The feature names of an event. -/
def Event.feature_names (e : Event) : List String :=
  e.features.map (fun f => f.name)

/-- Construction-time schema errors.  The sources raise `ValueError` /
`KeyError`; the spec's §7 taxonomy groups all of them as `SchemaError`, so
the constructors record which check fired. -/
inductive SchemaError
  | duplicateValues (dict_name : String)
  | emptyValue (dict_name : String)
  | keyNotFound (key : String)
  | singleStringBadArity (dict_name : String)
  | emptySingleString (dict_name : String)
  | duplicateFeatureNames
deriving DecidableEq, Repr

/-- The argument forms of `RenameOperator.__init__`'s `features` / `index`
parameters: `None`, a single string, or a dict. -/
inductive RenameArg
  | null
  | str (s : String)
  | dict (m : List (String × String))
deriving DecidableEq, Repr

/-- `check_rename_dict` (temporian/core/operators/rename.py, lines 36-69):
rejects duplicate target values, then empty target values, then source keys
missing from `event_names`; on success returns the dict.  The source's
"every value is a string" check (lines 47-53) is vacuous in this typed
embedding, in which the values are strings by construction.  Python's
`len(set(vs)) != len(vs)` holds exactly when the values are not nodup, and
an empty string is exactly the falsy string. -/
def check_rename_dict (rename_dict : List (String × String))
    (event_names : List String) (dict_name : String) :
    Except SchemaError (List (String × String)) :=
  if ¬ (rename_dict.map (fun kv => kv.2)).Nodup then
    Except.error (SchemaError.duplicateValues dict_name)
  else if ¬ ∀ v ∈ rename_dict.map (fun kv => kv.2), v ≠ "" then
    Except.error (SchemaError.emptyValue dict_name)
  else
    match rename_dict.find? (fun kv => ¬ event_names.elem kv.1) with
    | some kv => Except.error (SchemaError.keyNotFound kv.1)
    | none => Except.ok rename_dict

/-- The `features` block of `RenameOperator.__init__` (rename.py, lines
73-91): `None` yields the empty map; a single string requires the event to
have exactly one feature and the string to be non-empty; a dict goes
through `check_rename_dict` against the feature names. -/
def resolveFeaturesArg (event : Event) (features : RenameArg) :
    Except SchemaError (List (String × String)) :=
  match features with
  | RenameArg.null => Except.ok []
  | RenameArg.str s =>
      match event.features with
      | [f] =>
          if s = "" then Except.error (SchemaError.emptySingleString "features")
          else Except.ok [(f.name, s)]
      | _ => Except.error (SchemaError.singleStringBadArity "features")
  | RenameArg.dict m => check_rename_dict m event.feature_names "features"

/-- The `index` block of `RenameOperator.__init__` (rename.py, lines
93-113), analogous to the features block but against the index names. -/
def resolveIndexArg (event : Event) (index : RenameArg) :
    Except SchemaError (List (String × String)) :=
  match index with
  | RenameArg.null => Except.ok []
  | RenameArg.str s =>
      match event.index_names with
      | [n] =>
          if s = "" then Except.error (SchemaError.emptySingleString "index")
          else Except.ok [(n, s)]
      | _ => Except.error (SchemaError.singleStringBadArity "index")
  | RenameArg.dict m => check_rename_dict m event.index_names "index"

/-- Python truthiness of the `index` argument at `if index:` (rename.py,
line 124): `None` and `{}` are falsy; a dict with entries is truthy; a
string reaching that line is non-empty (an empty one was rejected earlier)
and hence truthy. -/
def RenameArg.truthy : RenameArg → Bool
  | RenameArg.null => false
  | RenameArg.str s => s ≠ ""
  | RenameArg.dict m => ¬ m.isEmpty

/-- `RenameOperator.new_sampling` (rename.py, lines 149-164): a fresh
`Sampling` whose levels carry the renamed names (unrenamed levels keep
their name), the same per-level dtypes, and the same timestamp semantics;
`creator=self` is modelled as `some ()`. -/
def new_sampling (index_map : List (String × String)) (old : Sampling) :
    Sampling :=
  { index_levels := old.index_levels.map (fun level =>
      ⟨(lookupKey level.name index_map).getD level.name, level.dtype⟩)
    is_unix_timestamp := old.is_unix_timestamp
    creator := some () }

/-- Modelled from the spec: `Operator.check`
(temporian/core/operators/base.py) is not among the sources.  Per §3 and
§4.1 it validates the constructed operator's schemas, in particular that
there are no duplicate feature names; for the rename and calendar operators
every dtype is supported and the output sampling is consistent by
construction, so the duplicate-feature-name check is the operative one. -/
def operator_check (output : Event) : Except SchemaError Unit :=
  if (output.features.map (fun f => f.name)).Nodup then Except.ok ()
  else Except.error SchemaError.duplicateFeatureNames

/-- The output event assembled by `RenameOperator.__init__` (rename.py,
lines 122-145): the output sampling is the input event's sampling unless
the `index` argument was truthy (`if index:`), in which case it is the
fresh `new_sampling`; every output feature carries the renamed name, its
input dtype, the output sampling and `creator=self`. -/
def renameOutput (event : Event) (features_map index_map : List (String × String))
    (index_truthy : Bool) : Event :=
  let output_sampling :=
    if index_truthy then new_sampling index_map event.sampling
    else event.sampling
  { features := event.features.map (fun f =>
      { name := (lookupKey f.name features_map).getD f.name
        dtype := f.dtype
        sampling := output_sampling
        creator := some () })
    sampling := output_sampling
    creator := some () }

/-- `RenameOperator.__init__` (rename.py, lines 30-147): resolve the
features map, then the index map (the first failing check raises), build
the output event, run `check()`, and return the operator's output event. -/
def renameOperator (event : Event) (features : RenameArg)
    (index : RenameArg) : Except SchemaError Event :=
  match resolveFeaturesArg event features with
  | Except.error err => Except.error err
  | Except.ok features_map =>
      match resolveIndexArg event index with
      | Except.error err => Except.error err
      | Except.ok index_map =>
          match operator_check
              (renameOutput event features_map index_map index.truthy) with
          | Except.error err => Except.error err
          | Except.ok _ =>
              Except.ok (renameOutput event features_map index_map index.truthy)

/-- `rename` (rename.py, lines 192-208): builds the operator and returns
its output event. -/
def rename (event : Event) (features : RenameArg) (index : RenameArg) :
    Except SchemaError Event :=
  renameOperator event features index

/-- Modelled from the spec: the numpy implementation of the rename operator
(temporian/implementation/numpy/operators/rename.py) is not among the
sources.  Per §4.2 it produces renamed features/levels with unchanged
sampling values: the data buffers are not touched, only the feature names
are mapped through the rename map. -/
def renameEventSetData (es : EventSet) (features_map : List (String × String)) :
    EventSet :=
  { es with feature_names := es.feature_names.map (fun n =>
      (lookupKey n features_map).getD n) }

/-- `BaseCalendarOperator.__init__`
(temporian/core/operators/calendar/base.py, lines 31-54), parameterised by
the concrete subclass's `output_feature_name`: one output feature of dtype
INT32 on the input event's own sampling (`sampling.sampling()` twice: both
the feature and the output event reuse the input's sampling object), then
`check()`. -/
def calendarOperator (output_feature_name : String) (sampling_event : Event) :
    Except SchemaError Event :=
  let output : Event :=
    { features := [{ name := output_feature_name
                     dtype := DTypeW.int32
                     sampling := sampling_event.sampling
                     creator := some () }]
      sampling := sampling_event.sampling
      creator := some () }
  match operator_check output with
  | Except.error err => Except.error err
  | Except.ok _ => Except.ok output

/-! ## Tabular import/export: NumpyEvent.dataframe_to_event /
NumpyEvent.event_to_dataframe (temporian/implementation/numpy/data/event.py)

A row-oriented table is embedded as a list of rows, each holding the tuple
of index column values (`key`, an arbitrary decidable type standing for the
index tuple), the timestamp, and the feature column values in column order.
Pandas specifics are embedded by their documented semantics:
`Index.unique()` lists the distinct keys in first-occurrence order,
`groupby(...).get_group(k)` keeps the group's rows in table order, and
`df.loc[label] = values` *sets* the row when the label already exists and
appends it otherwise (setting with enlargement). -/

/-- One row of the table: index key tuple, timestamp, feature values in
column order. -/
structure Row (K V : Type) where
  key : K
  timestamp : ℚ
  values : List V
deriving DecidableEq, Repr

/-- `NumpyFeature` (event.py, lines 19-55): a named flat value buffer. -/
structure NumpyFeatureD (V : Type) where
  name : String
  data : List V
deriving DecidableEq, Repr

/-- `NumpySampling` (temporian/implementation/numpy/data/sampling.py): the
index column names and the per-key timestamp arrays. -/
structure NumpySamplingD (K : Type) where
  names : List String
  data : List (K × List ℚ)
deriving DecidableEq, Repr

/-- `NumpyEvent` (event.py, lines 58-65): per-key feature buffers plus the
sampling. -/
structure NumpyEventD (K V : Type) where
  data : List (K × List (NumpyFeatureD V))
  sampling : NumpySamplingD K
deriving DecidableEq, Repr

/-- The distinct elements of a list in first-occurrence order
(`index_without_ts.unique()`); `seen` accumulates the already-emitted
elements. -/
def nubFirst {K : Type} [DecidableEq K] (seen : List K) : List K → List K
  | [] => []
  | k :: rest =>
      if k ∈ seen then nubFirst seen rest
      else k :: nubFirst (k :: seen) rest

/-- The rows of the index group of key `k`, in table order
(`df.groupby(index_without_ts.names).get_group(index)`). -/
def groupRows {K V : Type} [DecidableEq K] (T : List (Row K V)) (k : K) :
    List (Row K V) :=
  T.filter (fun r => r.key = k)

/-- `NumpyEvent.dataframe_to_event` (event.py, lines 94-144): for each
distinct index key in first-occurrence order, the group's timestamps in
table order become the sampling data, and each table column restricted to
the group becomes one `NumpyFeature` (`columns[column_name].to_numpy()`),
in column order.  `col_names` are the table's feature column names and
`idx_names` its index column names. -/
def dataframe_to_event {K V : Type} [DecidableEq K] [Inhabited V]
    (col_names idx_names : List String) (T : List (Row K V)) :
    NumpyEventD K V :=
  let keys := nubFirst [] (T.map (fun r => r.key))
  { data := keys.map (fun k =>
      (k, (col_names.enum.map (fun p =>
            ⟨p.2, (groupRows T k).map (fun r => r.values.getD p.1 default)⟩))))
    sampling :=
      { names := idx_names
        data := keys.map (fun k =>
            (k, (groupRows T k).map (fun r => r.timestamp))) } }

/-- One `df.loc[new_index, df_features] = [...]` write (event.py, lines
164-169): pandas label assignment with enlargement — when a row with the
same (key, timestamp) label exists it is overwritten in place, otherwise
the row is appended. -/
def upsertRow {K V : Type} [DecidableEq K] (acc : List (Row K V))
    (r : Row K V) : List (Row K V) :=
  if acc.any (fun x => x.key = r.key ∧ x.timestamp = r.timestamp) then
    acc.map (fun x =>
      if x.key = r.key ∧ x.timestamp = r.timestamp then
        { x with values := r.values }
      else x)
  else acc ++ [r]

/-- `NumpyEvent.event_to_dataframe` (event.py, lines 146-178): for each
group in insertion order, the sampling's timestamps for that key are read
(`event.sampling.data[index]`, a missing key raises), and for each position
`i` the row `index + (timestamp,)` with values `[feature.data[i] for
feature in features]` is written through `df.loc`.  The final
`list(event.data.keys())[0]` / `astype` line raises `IndexError` on an
event with no groups; every failure is embedded as `none`.  The `astype`
dtype restoration is the identity in this typed embedding. -/
def event_to_dataframe {K V : Type} [DecidableEq K] [Inhabited V]
    (event : NumpyEventD K V) : Option (List (Row K V)) :=
  if event.data.isEmpty then none
  else
    (event.data.mapM (fun kd =>
      (lookupKey kd.1 event.sampling.data).map (fun ts =>
        (List.range ts.length).map (fun i =>
          Row.mk kd.1 (ts.getD i 0)
            (kd.2.map (fun f => f.data.getD i default)))))).map
      (fun row_groups => row_groups.flatten.foldl upsertRow [])

/-- The table → event → table round trip of the spec's §6/§8. -/
def df_round_trip {K V : Type} [DecidableEq K] [Inhabited V]
    (col_names idx_names : List String) (T : List (Row K V)) :
    Option (List (Row K V)) :=
  event_to_dataframe (dataframe_to_event col_names idx_names T)

/-! ## Helper lemmas -/

theorem lookupKey_map_pair {κ α β : Type _} [DecidableEq κ] (k : κ)
    (g : κ → α → β) (l : List (κ × α)) :
    lookupKey k (l.map (fun kd => (kd.1, g kd.1 kd.2))) =
      (lookupKey k l).map (g k) := by
  induction l with
  | nil => rfl
  | cons kd rest ih =>
      obtain ⟨k2, v⟩ := kd
      by_cases h : k2 = k
      · subst h; simp [lookupKey]
      · simp [lookupKey, h, ih]

theorem sinceLastLoop_none_eq (l : List (IndexKey × IndexData)) :
    sinceLastLoop none l =
      Except.ok (l.map (fun kd =>
        (kd.1, ⟨[sinceLastDiffVals kd.2.timestamps], kd.2.timestamps⟩))) := by
  induction l with
  | nil => rfl
  | cons kd rest ih =>
      obtain ⟨k, d⟩ := kd
      simp [sinceLastLoop, sinceLastProcessGroup, ih]
      rfl

theorem sinceLastDiffVals_getD (ts : List ℚ) (i : ℕ)
    (h : i + 1 < ts.length) :
    (sinceLastDiffVals ts).getD (i + 1) none =
      some (ts.getD (i + 1) 0 - ts.getD i 0) := by
  have hlen : (List.zipWith (fun a b => some (b - a)) ts ts.tail).length
      = ts.tail.length := by
    simp [List.length_zipWith, List.length_tail]
  have hi : i < ts.tail.length := by
    simp [List.length_tail]; omega
  have hi2 : i < (List.zipWith (fun a b => some (b - a)) ts ts.tail).length := by
    omega
  have hts : i < ts.length := by omega
  unfold sinceLastDiffVals
  rw [List.getD_cons_succ]
  rw [List.getD_eq_getElem _ _ hi2, List.getElem_zipWith]
  rw [List.getD_eq_getElem _ _ h, List.getD_eq_getElem _ _ hts]
  congr 1
  rw [List.getElem_tail]

theorem sinceLastProcessGroup_key (samp : Option EventSet) (k : IndexKey)
    (d : IndexData) (r : IndexKey × IndexData)
    (h : sinceLastProcessGroup samp k d = Except.ok r) : r.1 = k := by
  cases samp with
  | none =>
      simp [sinceLastProcessGroup] at h
      simp [← h]
  | some s =>
      simp [sinceLastProcessGroup] at h
      cases hl : lookupKey k s.data with
      | none => rw [hl] at h; simp at h
      | some sd => rw [hl] at h; simp at h; simp [← h]

theorem sinceLastLoop_cons (samp : Option EventSet) (k : IndexKey)
    (d : IndexData) (rest : List (IndexKey × IndexData)) :
    sinceLastLoop samp ((k, d) :: rest) =
      (sinceLastProcessGroup samp k d).bind (fun r =>
        (sinceLastLoop samp rest).bind (fun rs => Except.ok (r :: rs))) := by
  rfl

theorem sinceLastLoop_lookup (samp : Option EventSet)
    (l o : List (IndexKey × IndexData))
    (h : sinceLastLoop samp l = Except.ok o) (k : IndexKey) :
    (∀ d, lookupKey k l = some d →
      ∃ od, sinceLastProcessGroup samp k d = Except.ok (k, od) ∧
        lookupKey k o = some od) ∧
    (lookupKey k l = none → lookupKey k o = none) := by
  induction l generalizing o with
  | nil =>
      simp [sinceLastLoop] at h
      subst h
      simp [lookupKey]
  | cons kd rest ih =>
      obtain ⟨k2, d2⟩ := kd
      rw [sinceLastLoop_cons] at h
      cases hp : sinceLastProcessGroup samp k2 d2 with
      | error e => rw [hp] at h; simp [Except.bind] at h
      | ok r =>
          rw [hp] at h
          cases hrest : sinceLastLoop samp rest with
          | error e => rw [hrest] at h; simp [Except.bind] at h
          | ok rs =>
              rw [hrest] at h
              simp [Except.bind] at h
              subst h
              have hr1 : r.1 = k2 := sinceLastProcessGroup_key samp k2 d2 r hp
              obtain ⟨ihs, ihn⟩ := ih rs hrest
              by_cases hk : k2 = k
              · subst hk
                constructor
                · intro d hd
                  simp [lookupKey] at hd
                  subst hd
                  refine ⟨r.2, ?_, ?_⟩
                  · rw [← hr1] at hp ⊢
                    simpa using hp
                  · simp [lookupKey, hr1]
                · intro hd
                  simp [lookupKey] at hd
              · constructor
                · intro d hd
                  simp [lookupKey, hk] at hd
                  obtain ⟨od, hod, hlk⟩ := ihs d hd
                  refine ⟨od, hod, ?_⟩
                  simp [lookupKey, hr1, hk, hlk]
                · intro hd
                  simp [lookupKey, hk] at hd
                  simp [lookupKey, hr1, hk, ihn hd]

theorem sinceLastLoop_ok_of_keys (s : EventSet)
    (l : List (IndexKey × IndexData))
    (h : ∀ kd ∈ l, lookupKey kd.1 s.data ≠ none) :
    ∃ o, sinceLastLoop (some s) l = Except.ok o := by
  induction l with
  | nil => exact ⟨[], rfl⟩
  | cons kd rest ih =>
      obtain ⟨k2, d2⟩ := kd
      have hhead : lookupKey k2 s.data ≠ none := h (k2, d2) (by simp)
      cases hl : lookupKey k2 s.data with
      | none => exact absurd hl hhead
      | some sd =>
          obtain ⟨o, ho⟩ := ih (fun kd hkd => h kd (by simp [hkd]))
          refine ⟨(k2, ⟨[since_last_cc d2.timestamps sd.timestamps], sd.timestamps⟩) :: o, ?_⟩
          rw [sinceLastLoop_cons, ho]
          simp [sinceLastProcessGroup, hl, Except.bind]

theorem sinceLastLoop_error_of_missing (s : EventSet)
    (l : List (IndexKey × IndexData))
    (h : ∃ kd ∈ l, lookupKey kd.1 s.data = none) :
    sinceLastLoop (some s) l = Except.error "KeyError" := by
  induction l with
  | nil =>
      obtain ⟨kd, hkd, _⟩ := h
      exact absurd hkd (List.not_mem_nil kd)
  | cons kd rest ih =>
      obtain ⟨k2, d2⟩ := kd
      rw [sinceLastLoop_cons]
      by_cases hl : lookupKey k2 s.data = none
      · simp [sinceLastProcessGroup, hl, Except.bind]
      · cases hlk : lookupKey k2 s.data with
        | none => exact absurd hlk hl
        | some sd =>
            have hrest : ∃ kd ∈ rest, lookupKey kd.1 s.data = none := by
              obtain ⟨kd3, hkd3, hnone⟩ := h
              rcases List.mem_cons.mp hkd3 with heq | hmem
              · exfalso; apply hl; simpa [heq] using hnone
              · exact ⟨kd3, hmem, hnone⟩
            rw [ih hrest]
            simp [sinceLastProcessGroup, hlk, Except.bind]

/-! ## Claim theorems -/

/-- C1: for every index group whose timestamp sequence is ascending, the
since-last operator evaluated without an explicit sampling succeeds, and the
output for that group keeps the input's timestamps, has a missing first
element, and has every subsequent element equal to the backward first
difference of the timestamp sequence; in particular for timestamps
[10, 12, 15] the output values are [missing, 2, 3]. -/
theorem C1_since_last_no_sampling (input : EventSet) (k : IndexKey)
    (d : IndexData) (hasc : AscendingQ d.timestamps)
    (hk : lookupKey k input.data = some d) :
    (∃ out : EventSet, sinceLastCall input none = Except.ok out ∧
      lookupKey k out.data =
        some ⟨[sinceLastDiffVals d.timestamps], d.timestamps⟩) ∧
    (sinceLastDiffVals d.timestamps).getD 0 none = none ∧
    (∀ i : ℕ, i + 1 < d.timestamps.length →
      (sinceLastDiffVals d.timestamps).getD (i + 1) none =
        some (d.timestamps.getD (i + 1) 0 - d.timestamps.getD i 0)) ∧
    sinceLastDiffVals [10, 12, 15] = [none, some 2, some 3] := by
  refine ⟨?_, rfl, fun i hi => sinceLastDiffVals_getD d.timestamps i hi, ?_⟩
  · refine ⟨_, by rw [sinceLastCall, sinceLastLoop_none_eq]; rfl, ?_⟩
    have := lookupKey_map_pair (α := IndexData) (β := IndexData) k
      (fun _ d2 => ⟨[sinceLastDiffVals d2.timestamps], d2.timestamps⟩)
      input.data
    simpa [hk] using this
  · unfold sinceLastDiffVals
    norm_num

/-- Witness for C1 at the concrete input group [10, 12, 15]. -/
theorem C1_witness :
    AscendingQ [10, 12, 15] ∧
    lookupKey ["k"] (EventSet.mk [(["k"], ⟨[], [10, 12, 15]⟩)] [] ["idx"] false).data
      = some ⟨[], [10, 12, 15]⟩ ∧
    ((∃ out : EventSet,
        sinceLastCall (EventSet.mk [(["k"], ⟨[], [10, 12, 15]⟩)] [] ["idx"] false) none
          = Except.ok out ∧
        lookupKey ["k"] out.data =
          some ⟨[sinceLastDiffVals [10, 12, 15]], [10, 12, 15]⟩) ∧
      (sinceLastDiffVals [10, 12, 15]).getD 0 none = none ∧
      (∀ i : ℕ, i + 1 < ([10, 12, 15] : List ℚ).length →
        (sinceLastDiffVals [10, 12, 15]).getD (i + 1) none =
          some (([10, 12, 15] : List ℚ).getD (i + 1) 0 -
            ([10, 12, 15] : List ℚ).getD i 0)) ∧
      sinceLastDiffVals [10, 12, 15] = [none, some 2, some 3]) :=
  ⟨by norm_num [AscendingQ, List.chain'_cons], by with_unfolding_all rfl,
    C1_since_last_no_sampling
      (EventSet.mk [(["k"], ⟨[], [10, 12, 15]⟩)] [] ["idx"] false) ["k"]
      ⟨[], [10, 12, 15]⟩ (by norm_num [AscendingQ, List.chain'_cons])
      (by with_unfolding_all rfl)⟩

theorem sinceLastCall_ok_iff (i : EventSet) (s : Option EventSet)
    (o : EventSet) :
    sinceLastCall i s = Except.ok o ↔
      ∃ od, sinceLastLoop s i.data = Except.ok od ∧
        o = ⟨od, ["since_last"], i.index_names, i.is_unix_timestamp⟩ := by
  constructor
  · intro h
    unfold sinceLastCall at h
    cases hl : sinceLastLoop s i.data with
    | error e => rw [hl] at h; exact Except.noConfusion h
    | ok od =>
        rw [hl] at h
        exact ⟨od, rfl, (Except.ok.inj h).symm⟩
  · rintro ⟨od, hod, ho⟩
    unfold sinceLastCall
    rw [hod]
    subst ho
    rfl

theorem sinceLastProcessGroup_congr (s1 s2 : Option EventSet) (k : IndexKey)
    (d : IndexData) (hmode : s1.isSome = s2.isSome)
    (hsamp : s1.bind (fun s => lookupKey k s.data) =
      s2.bind (fun s => lookupKey k s.data)) :
    sinceLastProcessGroup s1 k d = sinceLastProcessGroup s2 k d := by
  cases s1 with
  | none =>
      cases s2 with
      | none => rfl
      | some e2 => simp at hmode
  | some e1 =>
      cases s2 with
      | none => simp at hmode
      | some e2 =>
          simp at hsamp
          simp [sinceLastProcessGroup, hsamp]

/-- C9: the since-last output for an index group `k` depends only on that
group's slice of the input and of the sampling: two calls whose inputs agree
on group `k` (and whose samplings have the same mode and agree on group `k`)
produce the same output for group `k`, whatever the other groups hold; and
the call is a pure function, so evaluating it twice on equal inputs yields
equal outputs. -/
theorem C9_since_last_group_independence (in1 in2 : EventSet)
    (s1 s2 : Option EventSet) (k : IndexKey) (o1 o2 : EventSet)
    (hdata : lookupKey k in1.data = lookupKey k in2.data)
    (hmode : s1.isSome = s2.isSome)
    (hsamp : s1.bind (fun s => lookupKey k s.data) =
      s2.bind (fun s => lookupKey k s.data))
    (h1 : sinceLastCall in1 s1 = Except.ok o1)
    (h2 : sinceLastCall in2 s2 = Except.ok o2) :
    lookupKey k o1.data = lookupKey k o2.data ∧
    sinceLastCall in1 s1 = sinceLastCall in1 s1 := by
  refine ⟨?_, rfl⟩
  obtain ⟨od1, hod1, ho1⟩ := (sinceLastCall_ok_iff in1 s1 o1).mp h1
  obtain ⟨od2, hod2, ho2⟩ := (sinceLastCall_ok_iff in2 s2 o2).mp h2
  subst ho1; subst ho2
  obtain ⟨ihs1, ihn1⟩ := sinceLastLoop_lookup s1 in1.data od1 hod1 k
  obtain ⟨ihs2, ihn2⟩ := sinceLastLoop_lookup s2 in2.data od2 hod2 k
  cases hl : lookupKey k in1.data with
  | none =>
      have hl2 : lookupKey k in2.data = none := by rw [← hdata]; exact hl
      simp only []
      rw [ihn1 hl, ihn2 hl2]
  | some d =>
      have hl2 : lookupKey k in2.data = some d := by rw [← hdata]; exact hl
      obtain ⟨od, hp1, hk1⟩ := ihs1 d hl
      obtain ⟨od', hp2, hk2⟩ := ihs2 d hl2
      have hcongr := sinceLastProcessGroup_congr s1 s2 k d hmode hsamp
      rw [hcongr, hp2] at hp1
      have : od' = od := by
        have := (Except.ok.injEq _ _).mp hp1
        exact congrArg Prod.snd this
      simp only []
      rw [hk1, hk2, this]

/-- Witness for C9: two inputs that agree on group ["a"] but differ on
group ["z"], evaluated without explicit sampling. -/
theorem C9_witness :
    (lookupKey ["a"] (EventSet.mk
        [(["a"], ⟨[], [1, 2]⟩), (["z"], ⟨[], [5]⟩)] [] [] false).data =
      lookupKey ["a"] (EventSet.mk [(["a"], ⟨[], [1, 2]⟩)] [] [] false).data) ∧
    (sinceLastCall (EventSet.mk
        [(["a"], ⟨[], [1, 2]⟩), (["z"], ⟨[], [5]⟩)] [] [] false) none =
      Except.ok (EventSet.mk
        [(["a"], ⟨[[none, some 1]], [1, 2]⟩), (["z"], ⟨[[none]], [5]⟩)]
        ["since_last"] [] false)) ∧
    (sinceLastCall (EventSet.mk [(["a"], ⟨[], [1, 2]⟩)] [] [] false) none =
      Except.ok (EventSet.mk [(["a"], ⟨[[none, some 1]], [1, 2]⟩)]
        ["since_last"] [] false)) ∧
    lookupKey ["a"] (EventSet.mk
        [(["a"], ⟨[[none, some 1]], [1, 2]⟩), (["z"], ⟨[[none]], [5]⟩)]
        ["since_last"] [] false).data =
      lookupKey ["a"] (EventSet.mk [(["a"], ⟨[[none, some 1]], [1, 2]⟩)]
        ["since_last"] [] false).data :=
  ⟨by with_unfolding_all rfl, by with_unfolding_all rfl,
    by with_unfolding_all rfl,
    (C9_since_last_group_independence
      (EventSet.mk [(["a"], ⟨[], [1, 2]⟩), (["z"], ⟨[], [5]⟩)] [] [] false)
      (EventSet.mk [(["a"], ⟨[], [1, 2]⟩)] [] [] false)
      none none ["a"]
      (EventSet.mk
        [(["a"], ⟨[[none, some 1]], [1, 2]⟩), (["z"], ⟨[[none]], [5]⟩)]
        ["since_last"] [] false)
      (EventSet.mk [(["a"], ⟨[[none, some 1]], [1, 2]⟩)]
        ["since_last"] [] false)
      (by with_unfolding_all rfl) rfl rfl
      (by with_unfolding_all rfl) (by with_unfolding_all rfl)).1⟩

/-- C7, counterexample to the claim as stated: the implementation iterates
the *input's* groups.  At the concrete inputs below, a group ["h"] present
in the sampling but absent from the input yields no output rows at all
(rather than an all-missing output), and a group ["g"] present in the input
but absent from the sampling makes the whole call raise `KeyError` (rather
than being silently skipped). -/
theorem C7_counterexample :
    (∃ out, sinceLastCall
        (EventSet.mk [(["g"], ⟨[], [1]⟩)] [] [] false)
        (some (EventSet.mk [(["g"], ⟨[], [1]⟩), (["h"], ⟨[], [2, 3]⟩)]
          [] [] false)) = Except.ok out ∧
      lookupKey ["h"] out.data = none) ∧
    sinceLastCall (EventSet.mk [(["g"], ⟨[], [1]⟩)] [] [] false)
      (some (EventSet.mk [] [] [] false)) = Except.error "KeyError" :=
  ⟨⟨EventSet.mk [(["g"], ⟨[[some 0]], [1]⟩)] ["since_last"] [] false,
    by with_unfolding_all rfl, by with_unfolding_all rfl⟩,
    by with_unfolding_all rfl⟩

/-- C7 amended: when the since-last operator is evaluated with an explicit
sampling, the implementation iterates the input's index groups: if every
input group's key is present in the sampling the call succeeds and a group
absent from the input produces no output rows (in particular a group present
only in the sampling is skipped, not filled with missing values); if some
input group's key is absent from the sampling the call fails with
`KeyError` instead of skipping that group. -/
theorem C7_since_last_sampling_groups (input s : EventSet) :
    ((∀ kd ∈ input.data, lookupKey kd.1 s.data ≠ none) →
      ∃ out, sinceLastCall input (some s) = Except.ok out ∧
        ∀ j, lookupKey j input.data = none → lookupKey j out.data = none) ∧
    ((∃ kd ∈ input.data, lookupKey kd.1 s.data = none) →
      sinceLastCall input (some s) = Except.error "KeyError") := by
  constructor
  · intro h
    obtain ⟨o, ho⟩ := sinceLastLoop_ok_of_keys s input.data h
    refine ⟨⟨o, ["since_last"], input.index_names, input.is_unix_timestamp⟩,
      (sinceLastCall_ok_iff input (some s) _).mpr ⟨o, ho, rfl⟩, ?_⟩
    intro j hj
    exact (sinceLastLoop_lookup (some s) input.data o ho j).2 hj
  · intro h
    have herr := sinceLastLoop_error_of_missing s input.data h
    unfold sinceLastCall
    rw [herr]
    rfl

/-- Witness for C7's amended theorem at the concrete inputs of the
counterexample. -/
theorem C7_witness :
    ((∀ kd ∈ (EventSet.mk [(["g"], ⟨[], [1]⟩)] [] [] false).data,
        lookupKey kd.1 (EventSet.mk
          [(["g"], ⟨[], [1]⟩), (["h"], ⟨[], [2, 3]⟩)] [] [] false).data ≠ none) ∧
      (∃ out, sinceLastCall (EventSet.mk [(["g"], ⟨[], [1]⟩)] [] [] false)
          (some (EventSet.mk [(["g"], ⟨[], [1]⟩), (["h"], ⟨[], [2, 3]⟩)]
            [] [] false)) = Except.ok out ∧
        ∀ j, lookupKey j (EventSet.mk [(["g"], ⟨[], [1]⟩)] [] [] false).data = none →
          lookupKey j out.data = none)) ∧
    ((∃ kd ∈ (EventSet.mk [(["g"], ⟨[], [1]⟩)] [] [] false).data,
        lookupKey kd.1 (EventSet.mk [] [] [] false).data = none) ∧
      sinceLastCall (EventSet.mk [(["g"], ⟨[], [1]⟩)] [] [] false)
        (some (EventSet.mk [] [] [] false)) = Except.error "KeyError") := by
  refine ⟨⟨?_, ?_⟩, ⟨?_, ?_⟩⟩
  · decide
  · exact (C7_since_last_sampling_groups
      (EventSet.mk [(["g"], ⟨[], [1]⟩)] [] [] false)
      (EventSet.mk [(["g"], ⟨[], [1]⟩), (["h"], ⟨[], [2, 3]⟩)] [] [] false)).1
      (by decide)
  · decide
  · exact (C7_since_last_sampling_groups
      (EventSet.mk [(["g"], ⟨[], [1]⟩)] [] [] false)
      (EventSet.mk [] [] [] false)).2 (by decide)

theorem check_rename_dict_ok (m : List (String × String))
    (names : List String) (dn : String)
    (h1 : (m.map (fun kv => kv.2)).Nodup)
    (h2 : ∀ v ∈ m.map (fun kv => kv.2), v ≠ "")
    (h3 : ∀ kv ∈ m, kv.1 ∈ names) :
    check_rename_dict m names dn = Except.ok m := by
  unfold check_rename_dict
  rw [if_neg (not_not_intro h1)]
  rw [if_neg (not_not_intro h2)]
  have hf : m.find? (fun kv => ¬ names.elem kv.1) = none := by
    rw [List.find?_eq_none]
    intro kv hkv
    simp [List.elem_iff]
    exact h3 kv hkv
  rw [hf]

theorem check_rename_dict_error_iff (m : List (String × String))
    (names : List String) (dn : String) :
    (∃ err, check_rename_dict m names dn = Except.error err) ↔
      (¬ (m.map (fun kv => kv.2)).Nodup ∨
        (∃ v ∈ m.map (fun kv => kv.2), v = "") ∨
        (∃ kv ∈ m, kv.1 ∉ names)) := by
  by_cases h1 : (m.map (fun kv => kv.2)).Nodup
  · by_cases h2 : ∀ v ∈ m.map (fun kv => kv.2), v ≠ ""
    · cases hf : m.find? (fun kv => ¬ names.elem kv.1) with
      | some kv =>
          have hp := List.find?_some hf
          have hmem := List.mem_of_find?_eq_some hf
          have hnotin : kv.1 ∉ names := by
            simpa [List.elem_iff] using hp
          constructor
          · intro _
            exact Or.inr (Or.inr ⟨kv, hmem, hnotin⟩)
          · intro _
            refine ⟨SchemaError.keyNotFound kv.1, ?_⟩
            unfold check_rename_dict
            rw [if_neg (not_not_intro h1), if_neg (not_not_intro h2), hf]
      | none =>
          have hok : check_rename_dict m names dn = Except.ok m :=
            check_rename_dict_ok m names dn h1 h2 (by
              intro kv hkv
              have := List.find?_eq_none.mp hf kv hkv
              simpa [List.elem_iff] using this)
          constructor
          · rintro ⟨err, herr⟩
            rw [hok] at herr
            exact Except.noConfusion herr
          · rintro (hc | hc | hc)
            · exact absurd h1 hc
            · obtain ⟨v, hv, hv0⟩ := hc
              exact absurd hv0 (h2 v hv)
            · obtain ⟨kv, hkv, hnotin⟩ := hc
              exfalso
              have := List.find?_eq_none.mp hf kv hkv
              simp [List.elem_iff] at this
              exact hnotin this
    · constructor
      · intro _
        refine Or.inr (Or.inl ?_)
        push_neg at h2
        obtain ⟨v, hv, hv0⟩ := h2
        exact ⟨v, hv, hv0⟩
      · intro _
        refine ⟨SchemaError.emptyValue dn, ?_⟩
        unfold check_rename_dict
        rw [if_neg (not_not_intro h1), if_pos h2]
  · constructor
    · intro _; exact Or.inl h1
    · intro _
      refine ⟨SchemaError.duplicateValues dn, ?_⟩
      unfold check_rename_dict
      rw [if_pos h1]

theorem renameOperator_eq_check (e : Event) (fa ia : RenameArg)
    (fm im : List (String × String))
    (hf : resolveFeaturesArg e fa = Except.ok fm)
    (hi : resolveIndexArg e ia = Except.ok im) :
    renameOperator e fa ia =
      match operator_check (renameOutput e fm im ia.truthy) with
      | Except.error err => Except.error err
      | Except.ok _ => Except.ok (renameOutput e fm im ia.truthy) := by
  unfold renameOperator
  rw [hf, hi]

theorem renameOperator_dict_null_ok (e : Event) (m : List (String × String))
    (h1 : (m.map (fun kv => kv.2)).Nodup)
    (h2 : ∀ v ∈ m.map (fun kv => kv.2), v ≠ "")
    (h3 : ∀ kv ∈ m, kv.1 ∈ e.feature_names)
    (hout : (e.features.map (fun f =>
      (lookupKey f.name m).getD f.name)).Nodup) :
    renameOperator e (RenameArg.dict m) RenameArg.null =
      Except.ok
        { features := e.features.map (fun f =>
            { name := (lookupKey f.name m).getD f.name
              dtype := f.dtype
              sampling := e.sampling
              creator := some () })
          sampling := e.sampling
          creator := some () } := by
  have hres : resolveFeaturesArg e (RenameArg.dict m) = Except.ok m :=
    check_rename_dict_ok m e.feature_names "features" h1 h2 h3
  have hnames : ((renameOutput e m [] RenameArg.null.truthy).features.map
      (fun f => f.name)).Nodup := by
    simpa [renameOutput, RenameArg.truthy, List.map_map, Function.comp]
      using hout
  have hchk : operator_check (renameOutput e m [] RenameArg.null.truthy)
      = Except.ok () := by
    simp [operator_check, hnames]
  rw [renameOperator_eq_check e (RenameArg.dict m) RenameArg.null m [] hres
    rfl]
  rw [hchk]
  rfl

theorem check_rename_dict_ok_inv (m : List (String × String))
    (names : List String) (dn : String) (m2 : List (String × String))
    (h : check_rename_dict m names dn = Except.ok m2) : m2 = m := by
  unfold check_rename_dict at h
  by_cases h1 : ¬ (m.map (fun kv => kv.2)).Nodup
  · rw [if_pos h1] at h; exact Except.noConfusion h
  · rw [if_neg h1] at h
    by_cases h2 : ¬ ∀ v ∈ m.map (fun kv => kv.2), v ≠ ""
    · rw [if_pos h2] at h; exact Except.noConfusion h
    · rw [if_neg h2] at h
      cases hf : m.find? (fun kv => ¬ names.elem kv.1) with
      | some kv => rw [hf] at h; exact Except.noConfusion h
      | none => rw [hf] at h; exact (Except.ok.inj h).symm

theorem renameOperator_ok_inv (e : Event) (fa ia : RenameArg) (out : Event)
    (h : renameOperator e fa ia = Except.ok out) :
    ∃ fm im, resolveFeaturesArg e fa = Except.ok fm ∧
      resolveIndexArg e ia = Except.ok im ∧
      operator_check (renameOutput e fm im ia.truthy) = Except.ok () ∧
      out = renameOutput e fm im ia.truthy := by
  unfold renameOperator at h
  cases hf : resolveFeaturesArg e fa with
  | error err => rw [hf] at h; exact Except.noConfusion h
  | ok fm =>
      rw [hf] at h
      have h2 : (match resolveIndexArg e ia with
          | Except.error err => (Except.error err : Except SchemaError Event)
          | Except.ok index_map =>
              match operator_check (renameOutput e fm index_map ia.truthy) with
              | Except.error err => Except.error err
              | Except.ok _ =>
                  Except.ok (renameOutput e fm index_map ia.truthy))
          = Except.ok out := h
      cases hi : resolveIndexArg e ia with
      | error err => rw [hi] at h2; exact Except.noConfusion h2
      | ok im =>
          rw [hi] at h2
          have h3 : (match operator_check (renameOutput e fm im ia.truthy) with
              | Except.error err => (Except.error err : Except SchemaError Event)
              | Except.ok _ =>
                  Except.ok (renameOutput e fm im ia.truthy))
              = Except.ok out := h2
          cases hc : operator_check (renameOutput e fm im ia.truthy) with
          | error err => rw [hc] at h3; exact Except.noConfusion h3
          | ok u =>
              cases u
              rw [hc] at h3
              exact ⟨fm, im, rfl, rfl, hc, (Except.ok.inj h3).symm⟩

/-- C5, counterexample to the claim as stated: with source features
["a", "c"] and the rename map {"a": "c"}, the map has no duplicate target
values, no empty target, and its key exists in the source node, yet the
construction fails — the renamed output names ["c", "c"] collide, which the
operator's final `check()` rejects. -/
theorem C5_counterexample :
    rename
      (Event.mk
        [⟨"a", DTypeW.float64, ⟨[], false, none⟩, none⟩,
         ⟨"c", DTypeW.float64, ⟨[], false, none⟩, none⟩]
        ⟨[], false, none⟩ none)
      (RenameArg.dict [("a", "c")]) RenameArg.null
      = Except.error SchemaError.duplicateFeatureNames ∧
    ([("a", "c")].map (fun kv => kv.2)).Nodup ∧
    (∀ v ∈ [("a", "c")].map (fun kv => kv.2), v ≠ "") ∧
    (∀ kv ∈ [("a", "c")],
      kv.1 ∈ (Event.mk
        [⟨"a", DTypeW.float64, ⟨[], false, none⟩, none⟩,
         ⟨"c", DTypeW.float64, ⟨[], false, none⟩, none⟩]
        ⟨[], false, none⟩ none).feature_names) := by
  refine ⟨by with_unfolding_all rfl, by decide, by decide, by decide⟩

/-- C5 amended: constructing a rename operator from a (typed, string
valued) features map fails before the operator enters the graph if and only
if the map has duplicate target values, has an empty target value, has a
source key that does not exist in the source node, or the renamed output
feature names contain a duplicate (a target colliding with an un-renamed
feature name, rejected by the operator's `check()`). -/
theorem C5_rename_check_iff (e : Event) (m : List (String × String)) :
    (∃ err, rename e (RenameArg.dict m) RenameArg.null = Except.error err) ↔
      (¬ (m.map (fun kv => kv.2)).Nodup ∨
        (∃ v ∈ m.map (fun kv => kv.2), v = "") ∨
        (∃ kv ∈ m, kv.1 ∉ e.feature_names) ∨
        ¬ (e.features.map (fun f =>
            (lookupKey f.name m).getD f.name)).Nodup) := by
  by_cases hA : (¬ (m.map (fun kv => kv.2)).Nodup ∨
      (∃ v ∈ m.map (fun kv => kv.2), v = "") ∨
      (∃ kv ∈ m, kv.1 ∉ e.feature_names))
  · obtain ⟨err, herr⟩ :=
      (check_rename_dict_error_iff m e.feature_names "features").mpr hA
    constructor
    · intro _
      rcases hA with h | h | h
      · exact Or.inl h
      · exact Or.inr (Or.inl h)
      · exact Or.inr (Or.inr (Or.inl h))
    · intro _
      refine ⟨err, ?_⟩
      unfold rename renameOperator
      rw [show resolveFeaturesArg e (RenameArg.dict m) = Except.error err
        from herr]
  · push_neg at hA
    obtain ⟨h1, h2, h3⟩ := hA
    have h2' : ∀ v ∈ m.map (fun kv => kv.2), v ≠ "" := h2
    have h3' : ∀ kv ∈ m, kv.1 ∈ e.feature_names := fun kv hkv => h3 kv hkv
    by_cases hD : (e.features.map (fun f =>
        (lookupKey f.name m).getD f.name)).Nodup
    · have hok := renameOperator_dict_null_ok e m h1 h2' h3' hD
      constructor
      · rintro ⟨err, herr⟩
        rw [show rename e (RenameArg.dict m) RenameArg.null = _ from hok]
          at herr
        exact Except.noConfusion herr
      · rintro (h | h | h | h)
        · exact absurd h1 h
        · obtain ⟨v, hv, hv0⟩ := h
          exact absurd hv0 (h2' v hv)
        · obtain ⟨kv, hkv, hn⟩ := h
          exact absurd (h3' kv hkv) hn
        · exact absurd hD h
    · constructor
      · intro _
        exact Or.inr (Or.inr (Or.inr hD))
      · intro _
        refine ⟨SchemaError.duplicateFeatureNames, ?_⟩
        have heq := renameOperator_eq_check e (RenameArg.dict m)
          RenameArg.null m []
          (check_rename_dict_ok m e.feature_names "features" h1 h2' h3') rfl
        have hnames : ¬ ((renameOutput e m [] RenameArg.null.truthy).features.map
            (fun f => f.name)).Nodup := by
          intro hcon
          apply hD
          simpa [renameOutput, RenameArg.truthy, List.map_map, Function.comp]
            using hcon
        have hchk : operator_check (renameOutput e m [] RenameArg.null.truthy)
            = Except.error SchemaError.duplicateFeatureNames := by
          simp [operator_check, hnames]
        unfold rename
        rw [heq, hchk]

/-- Witness for C5's amended theorem: at features ["a", "c"] with map
{"a": "c"} the right-hand side holds through the fourth disjunct, and
the amended equivalence transports it to a construction failure. -/
theorem C5_witness :
    (¬ ((Event.mk
        [⟨"a", DTypeW.float64, ⟨[], false, none⟩, none⟩,
         ⟨"c", DTypeW.float64, ⟨[], false, none⟩, none⟩]
        ⟨[], false, none⟩ none).features.map (fun f =>
          (lookupKey f.name [("a", "c")]).getD f.name)).Nodup) ∧
    (∃ err, rename
      (Event.mk
        [⟨"a", DTypeW.float64, ⟨[], false, none⟩, none⟩,
         ⟨"c", DTypeW.float64, ⟨[], false, none⟩, none⟩]
        ⟨[], false, none⟩ none)
      (RenameArg.dict [("a", "c")]) RenameArg.null = Except.error err) :=
  ⟨by decide,
    (C5_rename_check_iff
      (Event.mk
        [⟨"a", DTypeW.float64, ⟨[], false, none⟩, none⟩,
         ⟨"c", DTypeW.float64, ⟨[], false, none⟩, none⟩]
        ⟨[], false, none⟩ none)
      [("a", "c")]).mpr (Or.inr (Or.inr (Or.inr (by decide))))⟩

/-- C6: when the index map is non-empty, the output node's sampling is the
freshly created `new_sampling` (`creator=self`), carrying the renamed level
names but the input sampling's per-level dtypes and timestamp semantics,
and it is the sampling of every output feature; when no index is renamed
the output reuses the input's sampling unchanged. -/
theorem C6_rename_index_new_sampling (e : Event)
    (idxm : List (String × String)) (out : Event)
    (hne : idxm ≠ [])
    (hok : rename e RenameArg.null (RenameArg.dict idxm) = Except.ok out) :
    out.sampling.index_levels.map (fun level => level.name)
      = e.sampling.index_levels.map (fun level =>
          (lookupKey level.name idxm).getD level.name) ∧
    out.sampling.index_levels.map (fun level => level.dtype)
      = e.sampling.index_levels.map (fun level => level.dtype) ∧
    out.sampling.is_unix_timestamp = e.sampling.is_unix_timestamp ∧
    out.sampling.creator = some () ∧
    out.sampling = new_sampling idxm e.sampling ∧
    (∀ f ∈ out.features, f.sampling = out.sampling) ∧
    (∀ (e2 out2 : Event),
      rename e2 RenameArg.null RenameArg.null = Except.ok out2 →
      out2.sampling = e2.sampling) := by
  obtain ⟨fm, im, hf, hi, hc, hout⟩ :=
    renameOperator_ok_inv e RenameArg.null (RenameArg.dict idxm) out hok
  have hfm : fm = [] := by
    have hf2 : (Except.ok [] : Except SchemaError (List (String × String)))
        = Except.ok fm := hf
    exact (Except.ok.inj hf2).symm
  have him : im = idxm := by
    have hi2 : check_rename_dict idxm e.index_names "index" = Except.ok im :=
      hi
    exact check_rename_dict_ok_inv idxm e.index_names "index" im hi2
  subst hfm
  rw [him] at hc hout
  have htruthy : (RenameArg.dict idxm).truthy = true := by
    cases idxm with
    | nil => exact absurd rfl hne
    | cons p rest => rfl
  rw [htruthy] at hout
  have hsamp : out.sampling = new_sampling idxm e.sampling := by
    rw [hout]
    simp [renameOutput]
  refine ⟨?_, ?_, ?_, ?_, hsamp, ?_, ?_⟩
  · rw [hsamp]
    simp [new_sampling, List.map_map, Function.comp]
  · rw [hsamp]
    simp [new_sampling, List.map_map, Function.comp]
  · rw [hsamp]; rfl
  · rw [hsamp]; rfl
  · intro f hf2
    rw [hout] at hf2
    simp [renameOutput] at hf2
    obtain ⟨g, _, hg⟩ := hf2
    rw [hout, ← hg]
    simp [renameOutput]
  · intro e2 out2 hok2
    obtain ⟨fm2, im2, hf2, hi2, hc2, hout2⟩ :=
      renameOperator_ok_inv e2 RenameArg.null RenameArg.null out2 hok2
    rw [hout2]
    simp [renameOutput, RenameArg.truthy]

/-- Witness for C6 at a concrete event with index level "i1" renamed to
"j1". -/
theorem C6_witness :
    ([("i1", "j1")] ≠ ([] : List (String × String))) ∧
    (rename (Event.mk [] ⟨[⟨"i1", DTypeW.int64⟩], true, none⟩ none)
        RenameArg.null (RenameArg.dict [("i1", "j1")])
      = Except.ok (Event.mk [] ⟨[⟨"j1", DTypeW.int64⟩], true, some ()⟩
          (some ()))) ∧
    ((Event.mk [] ⟨[⟨"j1", DTypeW.int64⟩], true, some ()⟩
        (some ())).sampling.index_levels.map (fun level => level.name)
      = (Event.mk [] ⟨[⟨"i1", DTypeW.int64⟩], true, none⟩
          none).sampling.index_levels.map (fun level =>
            (lookupKey level.name [("i1", "j1")]).getD level.name)) ∧
    (Event.mk [] ⟨[⟨"j1", DTypeW.int64⟩], true, some ()⟩
        (some ())).sampling
      = new_sampling [("i1", "j1")]
          (Event.mk [] ⟨[⟨"i1", DTypeW.int64⟩], true, none⟩ none).sampling :=
  ⟨by decide, by with_unfolding_all rfl,
    (C6_rename_index_new_sampling
      (Event.mk [] ⟨[⟨"i1", DTypeW.int64⟩], true, none⟩ none)
      [("i1", "j1")]
      (Event.mk [] ⟨[⟨"j1", DTypeW.int64⟩], true, some ()⟩ (some ()))
      (by decide) (by with_unfolding_all rfl)).1,
    (C6_rename_index_new_sampling
      (Event.mk [] ⟨[⟨"i1", DTypeW.int64⟩], true, none⟩ none)
      [("i1", "j1")]
      (Event.mk [] ⟨[⟨"j1", DTypeW.int64⟩], true, some ()⟩ (some ()))
      (by decide) (by with_unfolding_all rfl)).2.2.2.2.1⟩

theorem lookupKey_single (a b n : String) :
    (lookupKey n [(a, b)]).getD n = if a = n then b else n := by
  by_cases h : a = n <;> simp [lookupKey, h]

theorem nodup_map_single_rename (names : List String) (a b : String)
    (hnd : names.Nodup) (hb : b ∉ names) :
    (names.map (fun n => if a = n then b else n)).Nodup := by
  refine List.Nodup.map_on ?_ hnd
  intro x hx y hy hxy
  by_cases hax : a = x
  · by_cases hay : a = y
    · rw [← hax, ← hay]
    · exfalso
      rw [if_pos hax, if_neg hay] at hxy
      apply hb
      rw [hxy]
      exact hy
  · by_cases hay : a = y
    · exfalso
      rw [if_neg hax, if_pos hay] at hxy
      apply hb
      rw [← hxy]
      exact hx
    · rw [if_neg hax, if_neg hay] at hxy
      exact hxy

theorem single_rename_round (a b n : String) (hnb : n ≠ b) :
    (if b = (if a = n then b else n) then a else (if a = n then b else n))
      = n := by
  by_cases han : a = n
  · rw [if_pos han, if_pos rfl]
    exact han
  · rw [if_neg han, if_neg (fun h => hnb h.symm)]

/-- C4: renaming feature "a" to "b" and then "b" back to "a" on a node
that has a feature "a", no feature "b", and distinct feature names, both
succeeds and reproduces the original schema — the same feature names and
dtypes, the very same sampling both for the node and for each feature —
and the data-level rename (modelled from the spec: names mapped, buffers
untouched) leaves every data value bit-identical. -/
theorem C4_rename_round_trip (e : Event)
    (hnd : e.feature_names.Nodup)
    (ha : "a" ∈ e.feature_names)
    (hb : "b" ∉ e.feature_names) :
    ∃ e1 e2,
      rename e (RenameArg.dict [("a", "b")]) RenameArg.null = Except.ok e1 ∧
      rename e1 (RenameArg.dict [("b", "a")]) RenameArg.null = Except.ok e2 ∧
      e2.feature_names = e.feature_names ∧
      e2.features.map (fun f => f.dtype) = e.features.map (fun f => f.dtype) ∧
      e2.sampling = e.sampling ∧
      (∀ f ∈ e2.features, f.sampling = e.sampling) ∧
      (∀ es : EventSet, "b" ∉ es.feature_names →
        renameEventSetData (renameEventSetData es [("a", "b")]) [("b", "a")]
          = es ∧
        (renameEventSetData (renameEventSetData es [("a", "b")])
          [("b", "a")]).data = es.data) := by
  have hfun1 : (fun f : Feature => (lookupKey f.name [("a", "b")]).getD f.name)
      = fun f : Feature => if "a" = f.name then "b" else f.name :=
    funext fun f => lookupKey_single "a" "b" f.name
  have hfun2 : (fun f : Feature => (lookupKey f.name [("b", "a")]).getD f.name)
      = fun f : Feature => if "b" = f.name then "a" else f.name :=
    funext fun f => lookupKey_single "b" "a" f.name
  have h3 : ∀ kv ∈ [("a", "b")], kv.1 ∈ e.feature_names := by
    intro kv hkv
    rw [List.mem_singleton] at hkv
    subst hkv
    exact ha
  have hout1 : (e.features.map (fun f =>
      (lookupKey f.name [("a", "b")]).getD f.name)).Nodup := by
    rw [hfun1]
    have hmm : e.features.map (fun f => if "a" = f.name then "b" else f.name)
        = e.feature_names.map (fun n => if "a" = n then "b" else n) := by
      unfold Event.feature_names
      rw [List.map_map]
      rfl
    rw [hmm]
    exact nodup_map_single_rename e.feature_names "a" "b" hnd hb
  have he1 := renameOperator_dict_null_ok e [("a", "b")]
    (by decide) (by decide) h3 hout1
  have hE1names : (Event.mk (e.features.map (fun f =>
      { name := (lookupKey f.name [("a", "b")]).getD f.name
        dtype := f.dtype
        sampling := e.sampling
        creator := some () })) e.sampling (some ())).feature_names
      = e.feature_names.map (fun n => if "a" = n then "b" else n) := by
    unfold Event.feature_names
    rw [List.map_map]
    rw [show ((fun f : Feature => f.name) ∘ (fun f : Feature =>
      ({ name := (lookupKey f.name [("a", "b")]).getD f.name
         dtype := f.dtype
         sampling := e.sampling
         creator := some () } : Feature)))
      = fun f : Feature => (lookupKey f.name [("a", "b")]).getD f.name
      from rfl]
    rw [hfun1]
    rw [List.map_map]
    rfl
  have h3' : ∀ kv ∈ [("b", "a")],
      kv.1 ∈ (Event.mk (e.features.map (fun f =>
        { name := (lookupKey f.name [("a", "b")]).getD f.name
          dtype := f.dtype
          sampling := e.sampling
          creator := some () })) e.sampling (some ())).feature_names := by
    intro kv hkv
    rw [List.mem_singleton] at hkv
    subst hkv
    rw [hE1names]
    exact List.mem_map.mpr ⟨"a", ha, by rw [if_pos rfl]⟩
  have hround : ∀ n ∈ e.feature_names,
      (if "b" = (if "a" = n then "b" else n) then "a"
        else (if "a" = n then "b" else n)) = n := by
    intro n hn
    exact single_rename_round "a" "b" n (fun h => hb (h ▸ hn))
  have hout2 : ((Event.mk (e.features.map (fun f =>
      { name := (lookupKey f.name [("a", "b")]).getD f.name
        dtype := f.dtype
        sampling := e.sampling
        creator := some () })) e.sampling (some ())).features.map (fun f =>
        (lookupKey f.name [("b", "a")]).getD f.name)).Nodup := by
    rw [hfun2]
    show ((e.features.map _).map _).Nodup
    rw [List.map_map]
    have hmm : (e.features.map ((fun f : Feature =>
        if "b" = f.name then "a" else f.name) ∘ (fun f : Feature =>
        ({ name := (lookupKey f.name [("a", "b")]).getD f.name
           dtype := f.dtype
           sampling := e.sampling
           creator := some () } : Feature))))
        = e.feature_names := by
      have hstep : (e.features.map ((fun f : Feature =>
          if "b" = f.name then "a" else f.name) ∘ (fun f : Feature =>
          ({ name := (lookupKey f.name [("a", "b")]).getD f.name
             dtype := f.dtype
             sampling := e.sampling
             creator := some () } : Feature))))
          = e.features.map (fun f : Feature =>
            if "b" = ((lookupKey f.name [("a", "b")]).getD f.name) then "a"
            else ((lookupKey f.name [("a", "b")]).getD f.name)) := rfl
      rw [hstep]
      unfold Event.feature_names
      refine List.map_congr_left ?_
      intro f hf
      rw [lookupKey_single]
      exact hround f.name (List.mem_map.mpr ⟨f, hf, rfl⟩)
    rw [hmm]
    exact hnd
  have he2 := renameOperator_dict_null_ok
    (Event.mk (e.features.map (fun f =>
      { name := (lookupKey f.name [("a", "b")]).getD f.name
        dtype := f.dtype
        sampling := e.sampling
        creator := some () })) e.sampling (some ()))
    [("b", "a")] (by decide) (by decide) h3' hout2
  refine ⟨_, _, he1, he2, ?_, ?_, rfl, ?_, ?_⟩
  · unfold Event.feature_names
    show ((e.features.map _).map _).map _ = e.features.map (fun f => f.name)
    rw [List.map_map, List.map_map]
    refine List.map_congr_left ?_
    intro f hf
    show (lookupKey ((lookupKey f.name [("a", "b")]).getD f.name)
        [("b", "a")]).getD ((lookupKey f.name [("a", "b")]).getD f.name)
      = f.name
    rw [lookupKey_single "a" "b" f.name]
    rw [lookupKey_single "b" "a" (if "a" = f.name then "b" else f.name)]
    exact hround f.name (List.mem_map.mpr ⟨f, hf, rfl⟩)
  · show ((e.features.map _).map _).map _ = _
    rw [List.map_map, List.map_map]
    rfl
  · intro f hf
    obtain ⟨g, hg, hgf⟩ := List.mem_map.mp hf
    rw [← hgf]
  · intro es hbes
    have hdata : renameEventSetData (renameEventSetData es [("a", "b")])
        [("b", "a")] = es := by
      obtain ⟨dta, fn, inx, iu⟩ := es
      show EventSet.mk dta ((fn.map _).map _) inx iu = EventSet.mk dta fn inx iu
      rw [List.map_map]
      have hfn : (fn.map ((fun n => (lookupKey n [("b", "a")]).getD n) ∘
          (fun n => (lookupKey n [("a", "b")]).getD n))) = fn.map id := by
        refine List.map_congr_left ?_
        intro n hn
        show (lookupKey ((lookupKey n [("a", "b")]).getD n)
            [("b", "a")]).getD ((lookupKey n [("a", "b")]).getD n) = n
        rw [lookupKey_single "a" "b" n]
        rw [lookupKey_single "b" "a" (if "a" = n then "b" else n)]
        exact single_rename_round "a" "b" n (fun h => hbes (h ▸ hn))
      rw [hfn, List.map_id]
    exact ⟨hdata, by rw [hdata]⟩

/-- Witness for C4 at a concrete single-feature event named "a". -/
theorem C4_witness :
    (Event.mk [⟨"a", DTypeW.float64, ⟨[], false, none⟩, none⟩]
        ⟨[], false, none⟩ none).feature_names.Nodup ∧
    "a" ∈ (Event.mk [⟨"a", DTypeW.float64, ⟨[], false, none⟩, none⟩]
        ⟨[], false, none⟩ none).feature_names ∧
    "b" ∉ (Event.mk [⟨"a", DTypeW.float64, ⟨[], false, none⟩, none⟩]
        ⟨[], false, none⟩ none).feature_names ∧
    (∃ e1 e2,
      rename (Event.mk [⟨"a", DTypeW.float64, ⟨[], false, none⟩, none⟩]
          ⟨[], false, none⟩ none)
        (RenameArg.dict [("a", "b")]) RenameArg.null = Except.ok e1 ∧
      rename e1 (RenameArg.dict [("b", "a")]) RenameArg.null = Except.ok e2 ∧
      e2.feature_names = (Event.mk
        [⟨"a", DTypeW.float64, ⟨[], false, none⟩, none⟩]
        ⟨[], false, none⟩ none).feature_names ∧
      e2.features.map (fun f => f.dtype) = (Event.mk
        [⟨"a", DTypeW.float64, ⟨[], false, none⟩, none⟩]
        ⟨[], false, none⟩ none).features.map (fun f => f.dtype) ∧
      e2.sampling = (Event.mk
        [⟨"a", DTypeW.float64, ⟨[], false, none⟩, none⟩]
        ⟨[], false, none⟩ none).sampling ∧
      (∀ f ∈ e2.features, f.sampling = (Event.mk
        [⟨"a", DTypeW.float64, ⟨[], false, none⟩, none⟩]
        ⟨[], false, none⟩ none).sampling) ∧
      (∀ es : EventSet, "b" ∉ es.feature_names →
        renameEventSetData (renameEventSetData es [("a", "b")]) [("b", "a")]
          = es ∧
        (renameEventSetData (renameEventSetData es [("a", "b")])
          [("b", "a")]).data = es.data)) :=
  ⟨by decide, by decide, by decide,
    C4_rename_round_trip
      (Event.mk [⟨"a", DTypeW.float64, ⟨[], false, none⟩, none⟩]
        ⟨[], false, none⟩ none)
      (by decide) (by decide) (by decide)⟩

/-- C8: the moving-min operator's output schema has exactly one feature per
input feature, with the input feature's name and the same dtype — its
`get_feature_dtype` is the identity on the input dtype, never widening or
narrowing it. -/
theorem C8_moving_min_output_dtypes (input_features : List FeatureSchema) :
    (movingMinOutputFeatures input_features).length = input_features.length ∧
    (movingMinOutputFeatures input_features).map (fun f => f.dtype)
      = input_features.map (fun f => f.dtype) ∧
    (movingMinOutputFeatures input_features).map (fun f => f.name)
      = input_features.map (fun f => f.name) ∧
    ∀ f : FeatureSchema, MovingMinOperator.get_feature_dtype f = f.dtype := by
  refine ⟨?_, ?_, ?_, fun f => rfl⟩ <;>
    simp [movingMinOutputFeatures, windowOutputFeatures,
      MovingMinOperator.get_feature_dtype, List.map_map, Function.comp]

/-- C10: for every input node, a calendar operator's construction succeeds
and its output node has exactly one feature, of dtype INT32, named by the
operator's declared output feature name, carrying the input node's own
sampling — which is also the output node's sampling (no new sampling is
created: the sampling value, creator included, is the input's). -/
theorem C10_calendar_output (feature_name : String) (e : Event) :
    calendarOperator feature_name e = Except.ok
      (Event.mk [⟨feature_name, DTypeW.int32, e.sampling, some ()⟩]
        e.sampling (some ())) ∧
    (Event.mk [⟨feature_name, DTypeW.int32, e.sampling, some ()⟩]
      e.sampling (some ())).features.length = 1 ∧
    (Event.mk [⟨feature_name, DTypeW.int32, e.sampling, some ()⟩]
      e.sampling (some ())).features.map (fun f => f.name) = [feature_name] ∧
    (Event.mk [⟨feature_name, DTypeW.int32, e.sampling, some ()⟩]
      e.sampling (some ())).features.map (fun f => f.dtype)
      = [DTypeW.int32] ∧
    (Event.mk [⟨feature_name, DTypeW.int32, e.sampling, some ()⟩]
      e.sampling (some ())).sampling = e.sampling ∧
    ∀ f ∈ (Event.mk [⟨feature_name, DTypeW.int32, e.sampling, some ()⟩]
      e.sampling (some ())).features, f.sampling = e.sampling := by
  have hchk : operator_check
      (Event.mk [⟨feature_name, DTypeW.int32, e.sampling, some ()⟩]
        e.sampling (some ())) = Except.ok () := by
    simp [operator_check]
  refine ⟨?_, rfl, rfl, rfl, rfl, ?_⟩
  · simp only [calendarOperator, hchk]
  · intro f hf
    rw [List.mem_singleton] at hf
    rw [hf]

theorem dropWhile_dropWhile_of_imp {α : Type _} (p q : α → Bool)
    (l : List α) (h : ∀ x, p x = true → q x = true) :
    (l.dropWhile p).dropWhile q = l.dropWhile q := by
  induction l with
  | nil => rfl
  | cons a rest ih =>
      by_cases hp : p a = true
      · rw [List.dropWhile_cons, if_pos hp, ih, List.dropWhile_cons,
          if_pos (h a hp)]
      · rw [List.dropWhile_cons, if_neg hp]

theorem sorted_dropWhile_lt_eq_filter (a : ℚ) (l : List (ℚ × Option ℚ))
    (hs : List.Pairwise (fun p q : ℚ × Option ℚ => p.1 ≤ q.1) l) :
    l.dropWhile (fun p => p.1 < a) = l.filter (fun p => a ≤ p.1) := by
  induction l with
  | nil => rfl
  | cons x rest ih =>
      rw [List.pairwise_cons] at hs
      by_cases hx : x.1 < a
      · rw [List.dropWhile_cons, if_pos (by simpa using hx),
          List.filter_cons, if_neg (by simpa using not_le.mpr hx)]
        exact ih hs.2
      · rw [List.dropWhile_cons, if_neg (by simpa using hx),
          List.filter_cons, if_pos (by simpa using not_lt.mp hx)]
        have : rest.filter (fun p => a ≤ p.1) = rest := by
          rw [List.filter_eq_self]
          intro y hy
          have hxy := hs.1 y hy
          simpa using le_trans (not_lt.mp hx) hxy
        rw [this]

theorem sorted_takeWhile_le_eq_filter (t : ℚ) (l : List (ℚ × Option ℚ))
    (hs : List.Pairwise (fun p q : ℚ × Option ℚ => p.1 ≤ q.1) l) :
    l.takeWhile (fun p => p.1 ≤ t) = l.filter (fun p => p.1 ≤ t) := by
  induction l with
  | nil => rfl
  | cons x rest ih =>
      rw [List.pairwise_cons] at hs
      by_cases hx : x.1 ≤ t
      · rw [List.takeWhile_cons, if_pos (by simpa using hx),
          List.filter_cons, if_pos (by simpa using hx)]
        rw [ih hs.2]
      · rw [List.takeWhile_cons, if_neg (by simpa using hx),
          List.filter_cons, if_neg (by simpa using hx)]
        have : rest.filter (fun p => p.1 ≤ t) = [] := by
          rw [List.filter_eq_nil_iff]
          intro y hy
          have hxy := hs.1 y hy
          simp only [decide_eq_true_eq]
          intro hyt
          exact hx (le_trans hxy hyt)
        rw [this]

theorem pairwise_fst_zip (ts : List ℚ) (vs : List (Option ℚ))
    (h : List.Pairwise (· ≤ ·) ts) :
    List.Pairwise (fun p q : ℚ × Option ℚ => p.1 ≤ q.1) (List.zip ts vs) := by
  induction ts generalizing vs with
  | nil => simp
  | cons a rest ih =>
      cases vs with
      | nil => simp
      | cons b vrest =>
          rw [List.pairwise_cons] at h
          rw [List.zip_cons_cons, List.pairwise_cons]
          constructor
          · intro p hp
            exact h.1 p.1 (List.of_mem_zip hp).1
          · exact ih vrest h.2

theorem movingMinImplAux_cons (wl : ℚ) (pairs : List (ℚ × Option ℚ))
    (t : ℚ) (rest : List ℚ) :
    movingMinImplAux wl pairs (t :: rest) =
      listMinQ (((pairs.dropWhile (fun p => p.1 < t - wl)).takeWhile
        (fun p => p.1 ≤ t)).filterMap Prod.snd) ::
      movingMinImplAux wl (pairs.dropWhile (fun p => p.1 < t - wl)) rest :=
  rfl

theorem movingMinSpec_cons (pairs : List (ℚ × Option ℚ)) (wl t : ℚ)
    (rest : List ℚ) :
    movingMinSpec pairs wl (t :: rest) =
      listMinQ (windowValues pairs wl t) :: movingMinSpec pairs wl rest :=
  rfl

theorem movingMinImplAux_eq_spec_gen (wl : ℚ)
    (pairs : List (ℚ × Option ℚ)) (sts : List ℚ)
    (hp : List.Pairwise (fun p q : ℚ × Option ℚ => p.1 ≤ q.1) pairs)
    (hs : List.Pairwise (· ≤ ·) sts)
    (pairs2 : List (ℚ × Option ℚ))
    (hinv : ∀ t ∈ sts, pairs2.dropWhile (fun p => p.1 < t - wl)
      = pairs.dropWhile (fun p => p.1 < t - wl)) :
    movingMinImplAux wl pairs2 sts = movingMinSpec pairs wl sts := by
  induction sts generalizing pairs2 with
  | nil => rfl
  | cons t rest ih =>
      rw [List.pairwise_cons] at hs
      have hlive : pairs2.dropWhile (fun p => p.1 < t - wl)
          = pairs.dropWhile (fun p => p.1 < t - wl) :=
        hinv t (List.mem_cons_self t rest)
      rw [movingMinImplAux_cons, movingMinSpec_cons, hlive]
      have hhead : ((pairs.dropWhile (fun p => p.1 < t - wl)).takeWhile
          (fun p => p.1 ≤ t)).filterMap Prod.snd
          = windowValues pairs wl t := by
        rw [sorted_dropWhile_lt_eq_filter (t - wl) pairs hp]
        rw [sorted_takeWhile_le_eq_filter t _ (hp.filter _)]
        rw [List.filter_filter]
        unfold windowValues
        congr 1
        refine List.filter_congr ?_
        intro p hp2
        by_cases h1 : t - wl ≤ p.1 <;> by_cases h2 : p.1 ≤ t <;>
          simp [h1, h2]
      rw [hhead]
      congr 1
      refine ih hs.2 (pairs.dropWhile (fun p => p.1 < t - wl)) ?_
      intro u hu
      refine dropWhile_dropWhile_of_imp _ _ pairs ?_
      intro x hx
      simp only [decide_eq_true_eq] at hx ⊢
      have htu : t ≤ u := hs.1 u hu
      have : t - wl ≤ u - wl := by linarith
      exact lt_of_lt_of_le hx this

/-- C2: for ascending input and sampling timestamps, the (spec-modelled)
sliding-window moving-min implementation coincides, for every feature
buffer, with the brute-force recomputation that takes at each sampling
timestamp `t` the minimum of the non-missing input values whose timestamps
lie in the closed window `[t - window_length, t]`; in particular with
window_length 2 over timestamps [1,2,3,5], values [5,3,8,1], sampled at the
same timestamps, both yield [5,3,3,1]. -/
theorem C2_moving_min_window (ts : List ℚ) (vs : List (Option ℚ))
    (window_length : ℚ) (sampling_ts : List ℚ)
    (hts : AscendingQ ts) (hsts : AscendingQ sampling_ts) :
    movingMinImpl ts vs window_length sampling_ts
      = movingMinSpec (List.zip ts vs) window_length sampling_ts ∧
    movingMinImpl [1, 2, 3, 5] [some 5, some 3, some 8, some 1] 2 [1, 2, 3, 5]
      = [some 5, some 3, some 3, some 1] ∧
    movingMinSpec (List.zip [1, 2, 3, 5] [some 5, some 3, some 8, some 1]) 2
      [1, 2, 3, 5] = [some 5, some 3, some 3, some 1] := by
  refine ⟨?_, by with_unfolding_all rfl, by with_unfolding_all rfl⟩
  unfold movingMinImpl
  refine movingMinImplAux_eq_spec_gen window_length (List.zip ts vs)
    sampling_ts
    (pairwise_fst_zip ts vs (List.chain'_iff_pairwise.mp hts))
    (List.chain'_iff_pairwise.mp hsts)
    (List.zip ts vs) (fun t _ => rfl)

/-- Witness for C2 at the concrete example of the claim. -/
theorem C2_witness :
    AscendingQ [1, 2, 3, 5] ∧
    movingMinImpl [1, 2, 3, 5] [some 5, some 3, some 8, some 1] 2 [1, 2, 3, 5]
      = movingMinSpec (List.zip [1, 2, 3, 5] [some 5, some 3, some 8, some 1])
          2 [1, 2, 3, 5] ∧
    movingMinImpl [1, 2, 3, 5] [some 5, some 3, some 8, some 1] 2 [1, 2, 3, 5]
      = [some 5, some 3, some 3, some 1] :=
  ⟨by norm_num [AscendingQ, List.chain'_cons],
    (C2_moving_min_window [1, 2, 3, 5] [some 5, some 3, some 8, some 1] 2
      [1, 2, 3, 5] (by norm_num [AscendingQ, List.chain'_cons])
      (by norm_num [AscendingQ, List.chain'_cons])).1,
    (C2_moving_min_window [1, 2, 3, 5] [some 5, some 3, some 8, some 1] 2
      [1, 2, 3, 5] (by norm_num [AscendingQ, List.chain'_cons])
      (by norm_num [AscendingQ, List.chain'_cons])).2.1⟩

theorem mem_nubFirst {K : Type} [DecidableEq K] (seen l : List K) (x : K) :
    x ∈ nubFirst seen l ↔ x ∈ l ∧ x ∉ seen := by
  induction l generalizing seen with
  | nil => simp [nubFirst]
  | cons k rest ih =>
      by_cases hk : k ∈ seen
      · rw [nubFirst, if_pos hk, ih]
        constructor
        · rintro ⟨hx, hxs⟩
          exact ⟨List.mem_cons_of_mem k hx, hxs⟩
        · rintro ⟨hx, hxs⟩
          rcases List.mem_cons.mp hx with heq | hmem
          · exact absurd (heq ▸ hk) hxs
          · exact ⟨hmem, hxs⟩
      · rw [nubFirst, if_neg hk]
        constructor
        · intro hx
          rcases List.mem_cons.mp hx with heq | hmem
          · exact ⟨heq ▸ List.mem_cons_self k rest, heq ▸ hk⟩
          · obtain ⟨h1, h2⟩ := (ih (k :: seen)).mp hmem
            refine ⟨List.mem_cons_of_mem k h1, fun hs => h2 ?_⟩
            exact List.mem_cons_of_mem k hs
        · rintro ⟨hx, hxs⟩
          rcases List.mem_cons.mp hx with heq | hmem
          · exact heq ▸ List.mem_cons_self k _
          · by_cases hxk : x = k
            · exact hxk ▸ List.mem_cons_self k _
            · refine List.mem_cons_of_mem k ((ih (k :: seen)).mpr
                ⟨hmem, ?_⟩)
              intro hcon
              rcases List.mem_cons.mp hcon with h | h
              · exact hxk h
              · exact hxs h

theorem nodup_nubFirst {K : Type} [DecidableEq K] (seen l : List K) :
    (nubFirst seen l).Nodup := by
  induction l generalizing seen with
  | nil => exact List.nodup_nil
  | cons k rest ih =>
      by_cases hk : k ∈ seen
      · rw [nubFirst, if_pos hk]
        exact ih seen
      · rw [nubFirst, if_neg hk]
        refine List.nodup_cons.mpr ⟨?_, ih (k :: seen)⟩
        intro hcon
        exact ((mem_nubFirst (k :: seen) rest k).mp hcon).2
          (List.mem_cons_self k seen)

theorem nubFirst_ne_nil {K : Type} [DecidableEq K] (l : List K)
    (h : l ≠ []) : nubFirst [] l ≠ [] := by
  cases l with
  | nil => exact absurd rfl h
  | cons k rest =>
      rw [nubFirst, if_neg (List.not_mem_nil k)]
      exact List.cons_ne_nil _ _

theorem lookupKey_map_self {K : Type} {α : Type _} [DecidableEq K]
    (keys : List K) (g : K → α) (k : K) (hk : k ∈ keys) :
    lookupKey k (keys.map (fun k2 => (k2, g k2))) = some (g k) := by
  induction keys with
  | nil => exact absurd hk (List.not_mem_nil k)
  | cons k2 ks ih =>
      rw [List.map_cons, lookupKey]
      by_cases h2 : k2 = k
      · rw [if_pos h2, h2]
      · rw [if_neg h2]
        rcases List.mem_cons.mp hk with heq | hmem
        · exact absurd heq.symm h2
        · exact ih hmem

theorem mapM_option_of_map {α β : Type _} (l : List α) (f : α → Option β)
    (g : α → β) (h : ∀ x ∈ l, f x = some (g x)) :
    l.mapM f = some (l.map g) := by
  induction l with
  | nil => rfl
  | cons a rest ih =>
      rw [List.mapM_cons, h a (List.mem_cons_self a rest),
        ih (fun x hx => h x (List.mem_cons_of_mem a hx))]
      rfl

theorem range_map_getD {V : Type} [Inhabited V] (v : List V) :
    (List.range v.length).map (fun j => v.getD j default) = v := by
  induction v with
  | nil => rfl
  | cons a rest ih =>
      rw [List.length_cons, List.range_succ_eq_map, List.map_cons,
        List.map_map]
      rw [show ((fun j => (a :: rest).getD j default) ∘ Nat.succ)
        = fun j => rest.getD j default from rfl]
      rw [ih]
      rfl

theorem flatten_groups_perm {K V : Type} [DecidableEq K]
    (keys : List K) (T : List (Row K V)) (hnd : keys.Nodup)
    (hcover : ∀ r ∈ T, r.key ∈ keys) :
    ((keys.map (fun k => T.filter (fun r => r.key = k))).flatten).Perm T := by
  induction keys generalizing T with
  | nil =>
      cases T with
      | nil => simp
      | cons r rest =>
          exact absurd (hcover r (List.mem_cons_self r rest))
            (List.not_mem_nil r.key)
  | cons k ks ih =>
      rw [List.map_cons, List.flatten_cons]
      rw [List.nodup_cons] at hnd
      have hsplit : ∀ k2 ∈ ks, T.filter (fun r => r.key = k2)
          = (T.filter (fun r => ¬ r.key = k)).filter (fun r => r.key = k2) := by
        intro k2 hk2
        rw [List.filter_filter]
        refine (List.filter_congr ?_).symm.symm
        intro r hr
        have hk2k : k2 ≠ k := fun hcon => hnd.1 (hcon ▸ hk2)
        by_cases hrk : r.key = k2
        · simp [hrk, hk2k]
        · simp [hrk]
      have hmapeq : ks.map (fun k2 => T.filter (fun r => r.key = k2))
          = ks.map (fun k2 =>
              (T.filter (fun r => ¬ r.key = k)).filter
                (fun r => r.key = k2)) :=
        List.map_congr_left hsplit
      rw [hmapeq]
      have hcover2 : ∀ r ∈ T.filter (fun r => ¬ r.key = k), r.key ∈ ks := by
        intro r hr
        rw [List.mem_filter] at hr
        have hrk : ¬ r.key = k := by simpa using hr.2
        rcases List.mem_cons.mp (hcover r hr.1) with heq | hmem
        · exact absurd heq hrk
        · exact hmem
      have hperm2 := ih (T.filter (fun r => ¬ r.key = k)) hnd.2 hcover2
      refine List.Perm.trans (List.Perm.append_left _ hperm2) ?_
      have hbang : (T.filter fun r => ¬ r.key = k)
          = (T.filter fun r => !(decide (r.key = k))) := by
        refine List.filter_congr ?_
        intro r hr
        by_cases hrk : r.key = k <;> simp [hrk]
      rw [hbang]
      exact List.filter_append_perm _ T

theorem foldl_upsertRow_append {K V : Type} [DecidableEq K]
    (rows acc : List (Row K V))
    (hnd : ((acc ++ rows).map (fun r => (r.key, r.timestamp))).Nodup) :
    rows.foldl upsertRow acc = acc ++ rows := by
  induction rows generalizing acc with
  | nil => simp
  | cons r rest ih =>
      have hnotin : ∀ x ∈ acc, ¬ (x.key = r.key ∧ x.timestamp = r.timestamp) := by
        intro x hx hcon
        rw [List.map_append, List.nodup_append] at hnd
        have h1 : (x.key, x.timestamp) ∈ acc.map
            (fun r2 => (r2.key, r2.timestamp)) :=
          List.mem_map.mpr ⟨x, hx, rfl⟩
        have h2 : (x.key, x.timestamp) ∈ (r :: rest).map
            (fun r2 => (r2.key, r2.timestamp)) := by
          rw [hcon.1, hcon.2, List.map_cons]
          exact List.mem_cons_self _ _
        exact hnd.2.2 h1 h2
      have hcond : ¬ (acc.any (fun x =>
          decide (x.key = r.key ∧ x.timestamp = r.timestamp)) = true) := by
        rw [List.any_eq_true]
        rintro ⟨x, hx, hpx⟩
        exact hnotin x hx (by simpa using hpx)
      have hup : upsertRow acc r = acc ++ [r] := by
        unfold upsertRow
        rw [if_neg hcond]
      have hnd2 : ((acc ++ [r] ++ rest).map
          (fun r2 => (r2.key, r2.timestamp))).Nodup := by
        rw [List.append_assoc, List.singleton_append]
        exact hnd
      rw [List.foldl_cons, hup]
      rw [ih (acc ++ [r]) hnd2]
      simp

theorem reconstruct_group {K V : Type} [DecidableEq K] [Inhabited V]
    (col_names : List String) (k : K) (g : List (Row K V))
    (hkeys : ∀ r ∈ g, r.key = k)
    (hrect : ∀ r ∈ g, r.values.length = col_names.length) :
    (List.range ((g.map (fun r => r.timestamp)).length)).map (fun i =>
      Row.mk k ((g.map (fun r => r.timestamp)).getD i 0)
        ((col_names.enum.map (fun p => NumpyFeatureD.mk p.2
          (g.map (fun r => r.values.getD p.1 default)))).map
          (fun f => f.data.getD i default)))
      = g := by
  refine List.ext_getElem (by simp) ?_
  intro i h1 h2
  rw [List.getElem_map, List.getElem_range]
  have hi : i < g.length := h2
  have ht : (g.map (fun r => r.timestamp)).getD i 0 = g[i].timestamp := by
    rw [List.getD_eq_getElem _ _ (by simpa using hi), List.getElem_map]
  have hv : ((col_names.enum.map (fun p => NumpyFeatureD.mk p.2
      (g.map (fun r => r.values.getD p.1 default)))).map
      (fun f => f.data.getD i default)) = g[i].values := by
    rw [List.map_map]
    have hstep : (col_names.enum.map ((fun f : NumpyFeatureD V =>
        f.data.getD i default) ∘ (fun p => NumpyFeatureD.mk p.2
        (g.map (fun r => r.values.getD p.1 default)))))
        = col_names.enum.map (fun p => g[i].values.getD p.1 default) := by
      refine List.map_congr_left ?_
      intro p hp
      show (g.map (fun r => r.values.getD p.1 default)).getD i default
        = g[i].values.getD p.1 default
      rw [List.getD_eq_getElem _ _ (by simpa using hi), List.getElem_map]
    rw [hstep]
    have henum : col_names.enum.map (fun p => g[i].values.getD p.1 default)
        = (List.range col_names.length).map
            (fun j => g[i].values.getD j default) := by
      rw [← List.enum_map_fst col_names, List.map_map]
      rfl
    rw [henum]
    rw [← hrect g[i] (List.getElem_mem hi)]
    exact range_map_getD g[i].values
  rw [ht, hv]
  rw [show k = g[i].key from (hkeys g[i] (List.getElem_mem hi)).symm]

/-- C3, counterexample to the claim as stated: two rows of the same index
group sharing timestamp 5 are collapsed by the `df.loc` label overwrite —
the round trip returns a single row, which is no reordering of the original
two-row table; and the empty table is not reproduced either (the conversion
back raises IndexError, embedded as `none`). -/
theorem C3_counterexample :
    (¬ ∃ L, df_round_trip (K := String) (V := ℤ) ["x"] ["k"]
        [⟨"a", 5, [1]⟩, ⟨"a", 5, [2]⟩] = some L ∧
      L.Perm [⟨"a", 5, [1]⟩, ⟨"a", 5, [2]⟩]) ∧
    df_round_trip (K := String) (V := ℤ) ["x"] ["k"] [] = none := by
  constructor
  · rintro ⟨L, hL, hperm⟩
    rw [show df_round_trip (K := String) (V := ℤ) ["x"] ["k"]
        [⟨"a", 5, [1]⟩, ⟨"a", 5, [2]⟩] = some [⟨"a", 5, [2]⟩]
      from by with_unfolding_all rfl] at hL
    have hLe : L = [⟨"a", 5, [2]⟩] := (Option.some.inj hL).symm
    subst hLe
    have := hperm.length_eq
    simp at this
  · with_unfolding_all rfl

/-- C3 amended: for every nonempty row-oriented table whose rows all carry
one value per feature column and in which no two rows share the same
(index key, timestamp) pair, converting to the event representation and
back reproduces the original row set exactly (a permutation of the rows).
Rows that share (index key, timestamp) within a group are instead collapsed
to the last such row, and the empty table is rejected, per the
counterexample. -/
theorem C3_df_round_trip {K V : Type} [DecidableEq K] [Inhabited V]
    (col_names idx_names : List String) (T : List (Row K V))
    (hne : T ≠ [])
    (hrect : ∀ r ∈ T, r.values.length = col_names.length)
    (hpairs : (T.map (fun r => (r.key, r.timestamp))).Nodup) :
    ∃ L, df_round_trip col_names idx_names T = some L ∧ L.Perm T := by
  have hcover : ∀ r ∈ T, r.key ∈ nubFirst [] (T.map (fun r => r.key)) := by
    intro r hr
    exact (mem_nubFirst [] (T.map (fun r => r.key)) r.key).mpr
      ⟨List.mem_map.mpr ⟨r, hr, rfl⟩, List.not_mem_nil r.key⟩
  have hperm := flatten_groups_perm (nubFirst [] (T.map (fun r => r.key))) T
    (nodup_nubFirst [] (T.map (fun r => r.key))) hcover
  have hkeysne : nubFirst [] (T.map (fun r => r.key)) ≠ [] := by
    refine nubFirst_ne_nil _ ?_
    cases T with
    | nil => exact absurd rfl hne
    | cons r rest => exact List.cons_ne_nil _ _
  have hdatane : ((dataframe_to_event col_names idx_names T).data).isEmpty
      = false := by
    show ((nubFirst [] (T.map (fun r => r.key))).map _).isEmpty = false
    cases hk : nubFirst [] (T.map (fun r => r.key)) with
    | nil => exact absurd hk hkeysne
    | cons k ks => rfl
  have hmapm : ((dataframe_to_event col_names idx_names T).data).mapM
      (fun kd => (lookupKey kd.1
        (dataframe_to_event col_names idx_names T).sampling.data).map
        (fun ts => (List.range ts.length).map (fun i =>
          Row.mk kd.1 (ts.getD i 0)
            (kd.2.map (fun f => f.data.getD i default)))))
      = some ((nubFirst [] (T.map (fun r => r.key))).map
          (fun k => groupRows T k)) := by
    have hstep := mapM_option_of_map
      ((dataframe_to_event col_names idx_names T).data)
      (fun kd => (lookupKey kd.1
        (dataframe_to_event col_names idx_names T).sampling.data).map
        (fun ts => (List.range ts.length).map (fun i =>
          Row.mk kd.1 (ts.getD i 0)
            (kd.2.map (fun f => f.data.getD i default)))))
      (fun kd => (List.range ((groupRows T kd.1).map
          (fun r => r.timestamp)).length).map (fun i =>
        Row.mk kd.1 (((groupRows T kd.1).map
          (fun r => r.timestamp)).getD i 0)
          (kd.2.map (fun f => f.data.getD i default))))
      ?_
    · rw [hstep]
      congr 1
      show ((nubFirst [] (T.map (fun r => r.key))).map _).map _ = _
      rw [List.map_map]
      refine List.map_congr_left ?_
      intro k hk
      show (List.range (((groupRows T k).map
          (fun r => r.timestamp)).length)).map (fun i =>
        Row.mk k (((groupRows T k).map (fun r => r.timestamp)).getD i 0)
          ((col_names.enum.map (fun p => NumpyFeatureD.mk p.2
            ((groupRows T k).map (fun r => r.values.getD p.1 default)))).map
            (fun f => f.data.getD i default)))
        = groupRows T k
      refine reconstruct_group col_names k (groupRows T k) ?_ ?_
      · intro r hr
        have := (List.mem_filter.mp hr).2
        simpa using this
      · intro r hr
        exact hrect r (List.mem_of_mem_filter hr)
    · intro kd hkd
      obtain ⟨k, hk, hkd2⟩ := List.mem_map.mp hkd
      rw [← hkd2]
      show (lookupKey k ((nubFirst [] (T.map (fun r => r.key))).map
          (fun k2 => (k2, (groupRows T k2).map (fun r => r.timestamp))))).map
          _ = _
      rw [lookupKey_map_self _ _ k hk]
      rfl
  have hndB : ((((nubFirst [] (T.map (fun r => r.key))).map
      (fun k => groupRows T k)).flatten).map
      (fun r => (r.key, r.timestamp))).Nodup :=
    ((hperm.map (fun r => (r.key, r.timestamp))).nodup_iff).mpr hpairs
  refine ⟨((nubFirst [] (T.map (fun r => r.key))).map
    (fun k => groupRows T k)).flatten, ?_, ?_⟩
  · show event_to_dataframe (dataframe_to_event col_names idx_names T) = _
    unfold event_to_dataframe
    rw [if_neg (by rw [hdatane]; exact Bool.false_ne_true)]
    rw [hmapm]
    rw [Option.map_some']
    congr 1
    exact foldl_upsertRow_append _ [] (by simpa using hndB)
  · exact hperm

/-- Witness for C3's amended theorem at a concrete two-group table with
interleaved keys and distinct (key, timestamp) pairs. -/
theorem C3_witness :
    (([⟨"a", 1, [1]⟩, ⟨"b", 2, [7]⟩, ⟨"a", 3, [2]⟩] :
        List (Row String ℤ)) ≠ []) ∧
    (∀ r ∈ ([⟨"a", 1, [1]⟩, ⟨"b", 2, [7]⟩, ⟨"a", 3, [2]⟩] :
        List (Row String ℤ)), r.values.length = ["x"].length) ∧
    (([⟨"a", 1, [1]⟩, ⟨"b", 2, [7]⟩, ⟨"a", 3, [2]⟩] :
        List (Row String ℤ)).map (fun r => (r.key, r.timestamp))).Nodup ∧
    (∃ L, df_round_trip ["x"] ["k"]
        ([⟨"a", 1, [1]⟩, ⟨"b", 2, [7]⟩, ⟨"a", 3, [2]⟩] :
          List (Row String ℤ)) = some L ∧
      L.Perm [⟨"a", 1, [1]⟩, ⟨"b", 2, [7]⟩, ⟨"a", 3, [2]⟩]) :=
  ⟨by decide, by decide, by decide,
    C3_df_round_trip ["x"] ["k"]
      ([⟨"a", 1, [1]⟩, ⟨"b", 2, [7]⟩, ⟨"a", 3, [2]⟩] : List (Row String ℤ))
      (by decide) (by decide) (by decide)⟩

end Temporian
